import Mathlib

/-!
Shallow embedding of `nutils/sample.py` (the `Sample` class and its
combinators) and proofs about it.

Modelling conventions:
* A `Sample` is represented by a closed inductive type with one constructor
  per variant of the Python class hierarchy:
  `_DefaultIndex` (a transform-chains leaf), `_CustomIndex` (a leaf wrapped
  with an explicit global index array; in the code it is only ever built by
  `Sample.new` on top of a `_DefaultIndex`, so the leaf data is inlined),
  `_Empty`, `_Add`, `_Mul`, `_Zip` and `_TakeElements`.
* The external `PointsSequence` collaborator is represented by the list of
  per-element point counts (`sizes`); transform chains carry no data that the
  index bookkeeping of this module observes other than `fromdims` (`ndims`).
* A `_Zip` object stores the arrays `_offsets`, `_sizes` and `_indices`
  computed by `_Zip.__init__`; the constructor function `zipE` below performs
  that computation.  The `_ielems`/`_ilocals` arrays, which are used only by
  the evaluable lowering, are not needed by any claim and are omitted.
* Python exceptions are modelled with `Except PyError`; `PyError`
  distinguishes the error kinds that the code can raise.
* `numpy` peculiarities are modelled faithfully where they are observable:
  list slicing clips, `slice(*xs)` with a single element is `slice(stop)`
  and with no elements raises `TypeError`, Python `divmod(x, 0)` raises
  `ZeroDivisionError`.
-/

deriving instance DecidableEq for Except

namespace NutilsSample

/-- Kinds of exceptions raised by the code paths modelled here. -/
inductive PyError where
  | indexError
  | valueError
  | typeError
  | zeroDivError
  | notImplementedError
deriving DecidableEq, Repr

/-- The closed set of `Sample` variants of `nutils/sample.py`.

* `defaultIndex space fromdims sizes` — `_DefaultIndex(space, transforms, points)`
  where `sizes` lists `p.npoints` for each element of the points sequence.
* `customIndex space fromdims sizes index` — `_CustomIndex(_DefaultIndex(...), index)`
  (the only construction path, via `Sample.new` with an `index` argument).
* `empty spaces ndims` — `_Empty(spaces, ndims)`.
* `add s1 s2` — `_Add(s1, s2)`.
* `mul s1 s2` — `_Mul(s1, s2)`.
* `zipped spaces ndims offsets sizes indices npoints` — a `_Zip` object with
  its precomputed `_offsets`, `_sizes` and `_indices` arrays.
* `takeElems parent indices` — `_TakeElements(parent, indices)`. -/
inductive Sample where
  | defaultIndex (space : String) (fromdims : Nat) (sizes : List Nat)
  | customIndex (space : String) (fromdims : Nat) (sizes : List Nat) (index : List Nat)
  | empty (spaces : List String) (ndims : Nat)
  | add (s1 s2 : Sample)
  | mul (s1 s2 : Sample)
  | zipped (spaces : List String) (ndims : Nat)
      (offsets sizes indices : List Nat) (npoints : Nat)
  | takeElems (parent : Sample) (indices : List Nat)
deriving DecidableEq, Repr

/-- Cumulative offsets: `numpy.cumsum([0, *l])`, a list of length `l.length + 1`
starting with `0` and ending with `l.sum`. -/
def cumsum : List Nat → List Nat
  | [] => [0]
  | a :: t => 0 :: (cumsum t).map (a + ·)

/-- `Sample.spaces` of each variant (`_Add` uses `sample1.spaces`, `_Mul`
concatenates, wrappers inherit). -/
def Sample.spaces : Sample → List String
  | .defaultIndex space _ _ => [space]
  | .customIndex space _ _ _ => [space]
  | .empty spaces _ => spaces
  | .add s1 _ => s1.spaces
  | .mul s1 s2 => s1.spaces ++ s2.spaces
  | .zipped spaces _ _ _ _ _ => spaces
  | .takeElems parent _ => parent.spaces

/-- `Sample.ndims` of each variant (`transforms[0].fromdims` for leaves,
`sample1.ndims` for `_Add`, the sum for `_Mul`, `samples[0].ndims` for
`_Zip`, inherited for `_TakeElements`). -/
def Sample.ndims : Sample → Nat
  | .defaultIndex _ fromdims _ => fromdims
  | .customIndex _ fromdims _ _ => fromdims
  | .empty _ ndims => ndims
  | .add s1 _ => s1.ndims
  | .mul s1 s2 => s1.ndims + s2.ndims
  | .zipped _ ndims _ _ _ _ => ndims
  | .takeElems parent _ => parent.ndims

/-- `Sample.nelems` of each variant (`len(points)`, sum for `_Add`,
product for `_Mul`, `self._sizes.shape[0]` for `_Zip`,
`indices.shape[0]` for `_TakeElements`). -/
def Sample.nelems : Sample → Nat
  | .defaultIndex _ _ sizes => sizes.length
  | .customIndex _ _ sizes _ => sizes.length
  | .empty _ _ => 0
  | .add s1 s2 => s1.nelems + s2.nelems
  | .mul s1 s2 => s1.nelems * s2.nelems
  | .zipped _ _ _ sizes _ _ => sizes.length
  | .takeElems _ indices => indices.length

/-- Per-element point counts, i.e. `len(self.getindex(ielem))` for each
`ielem` in range.  For leaves these are the counts of the points sequence;
for `_Add` the concatenation, for `_Mul` the row-major products, for `_Zip`
the stored `_sizes`, for `_TakeElements` the parent counts at the retained
indices.  The coherence with `getindexE` is proved in `getindexE_ok_of_lt`. -/
def Sample.elemSizes : Sample → List Nat
  | .defaultIndex _ _ sizes => sizes
  | .customIndex _ _ sizes _ => sizes
  | .empty _ _ => []
  | .add s1 s2 => s1.elemSizes ++ s2.elemSizes
  | .mul s1 s2 => s1.elemSizes.flatMap (fun a => s2.elemSizes.map (a * ·))
  | .zipped _ _ _ sizes _ _ => sizes
  | .takeElems parent indices => indices.map (fun i => parent.elemSizes.getD i 0)

/-- `Sample.npoints` of each variant (`points.npoints` for leaves, the sum
for `_Add`, the product for `_Mul`, the stored point count for `_Zip`, and
`self._offsets[-1]` — the total of the retained per-element point counts —
for `_TakeElements`). -/
def Sample.npoints : Sample → Nat
  | .defaultIndex _ _ sizes => sizes.sum
  | .customIndex _ _ sizes _ => sizes.sum
  | .empty _ _ => 0
  | .add s1 s2 => s1.npoints + s2.npoints
  | .mul s1 s2 => s1.npoints * s2.npoints
  | .zipped _ _ _ _ _ npoints => npoints
  | .takeElems parent indices =>
      (indices.map (fun i => parent.elemSizes.getD i 0)).sum

/-- `Sample.getindex(ielem)`, with the exception kind made explicit.

* `_DefaultIndex.getindex`: bounds check then `arange(*offsets[ielem:ielem+2])`.
* `_CustomIndex.getindex`: `numpy.take(self._index, parent.getindex(ielem))`
  (an out-of-bounds take raises `IndexError`).
* `_Empty.getindex`: always `IndexError`.
* `_Add.getindex`: first operand's elements first, second operand offset by
  `sample1.npoints`.
* `_Mul.getindex`: `divmod(ielem, sample2.nelems)` (a `ZeroDivisionError`
  when `sample2.nelems == 0`), then the row-major combination
  `index1[:, None] * sample2.npoints + index2[None, :]`.
* `_Zip.getindex`: `self._indices[slice(*self._offsets[ielem:ielem+2])]` —
  note: no bounds check; with exactly one offset left the slice degenerates
  to `slice(stop)`, with none `slice()` raises `TypeError`.
* `_TakeElements.getindex`: bounds check then
  `arange(self._offsets[ielem], self._offsets[ielem+1])` where `_offsets`
  accumulates the retained parent per-element point counts. -/
def Sample.getindexE : Sample → Nat → Except PyError (List Nat)
  | .defaultIndex _ _ sizes, ielem =>
      if ielem < sizes.length then
        .ok (List.range' ((cumsum sizes).getD ielem 0) (sizes.getD ielem 0))
      else .error .indexError
  | .customIndex _ _ sizes index, ielem =>
      if ielem < sizes.length then
        let pidx := List.range' ((cumsum sizes).getD ielem 0) (sizes.getD ielem 0)
        if pidx.all (· < index.length) then
          .ok (pidx.map (fun j => index.getD j 0))
        else .error .indexError
      else .error .indexError
  | .empty _ _, _ => .error .indexError
  | .add s1 s2, ielem =>
      if ielem < s1.nelems then s1.getindexE ielem
      else (s2.getindexE (ielem - s1.nelems)).map (fun l => l.map (· + s1.npoints))
  | .mul s1 s2, ielem =>
      if s2.nelems = 0 then .error .zeroDivError
      else do
        let index1 ← s1.getindexE (ielem / s2.nelems)
        let index2 ← s2.getindexE (ielem % s2.nelems)
        pure (index1.flatMap (fun a => index2.map (fun b => a * s2.npoints + b)))
  | .zipped _ _ offsets _ indices _, ielem =>
      match (offsets.drop ielem).take 2 with
      | [a, b] => .ok ((indices.drop a).take (b - a))
      | [a] => .ok (indices.take a)
      | _ => .error .typeError
  | .takeElems parent indices, ielem =>
      if ielem < indices.length then
        let lens := indices.map (fun i => parent.elemSizes.getD i 0)
        .ok (List.range' ((cumsum lens).getD ielem 0) (lens.getD ielem 0))
      else .error .indexError

/-- `getindex` as a total function, defaulting to `[]` on error.  Used
where the code only ever calls `getindex` with an in-range element index. -/
def Sample.getindexD (s : Sample) (ielem : Nat) : List Nat :=
  match s.getindexE ielem with
  | .ok l => l
  | .error _ => []

/-- The no-error core of `Sample.__add__` (reached when the spaces agree):
return the other operand unchanged if one side has zero points, otherwise
build an `_Add`. -/
def Sample.addS (s1 s2 : Sample) : Sample :=
  if s2.npoints = 0 then s1
  else if s1.npoints = 0 then s2
  else .add s1 s2

/-- `Sample.__add__`: `ValueError` on mismatching spaces, then `addS`. -/
def Sample.addE (s1 s2 : Sample) : Except PyError Sample :=
  if s1.spaces ≠ s2.spaces then .error .valueError
  else .ok (s1.addS s2)

/-- `Sample.__mul__`: `ValueError` when the spaces are not disjoint,
otherwise `_Mul(self, other)`. -/
def Sample.mulE (s1 s2 : Sample) : Except PyError Sample :=
  if s1.spaces.any (fun sp => s2.spaces.contains sp) then .error .valueError
  else .ok (.mul s1 s2)

/-- `Sample.take_elements` with its per-variant overrides:

* `_Empty.take_elements` returns `self`;
* `_Add.take_elements` partitions the indices by `indices < sample1.nelems`
  and adds the two restrictions;
* `_TakeElements.take_elements` maps through the stored indices and
  delegates to the parent;
* the base implementation builds a `_TakeElements` for non-empty indices and
  the canonical empty sample otherwise. -/
def Sample.takeElements : Sample → List Nat → Sample
  | .empty spaces ndims, _ => .empty spaces ndims
  | .add s1 s2, indices =>
      (s1.takeElements (indices.filter (fun i => decide (i < s1.nelems)))).addS
        (s2.takeElements
          ((indices.filter (fun i => !decide (i < s1.nelems))).map (· - s1.nelems)))
  | .takeElems parent pindices, indices =>
      parent.takeElements (indices.map (fun i => pindices.getD i 0))
  | s, indices =>
      if indices.isEmpty then .empty s.spaces s.ndims else .takeElems s indices

/-- The element selection of `Sample.subset`: all elements with at least one
point marked `true` in the mask (`mask[self.getindex(ielem)].any()`). -/
def Sample.subsetSel (s : Sample) (mask : List Bool) : List Nat :=
  (List.range s.nelems).filter (fun ielem =>
    (s.getindexD ielem).any (fun p => mask.getD p false))

/-- `Sample.subset`: `_TransformChainsSample.subset` (both leaf variants)
re-derives a fresh `_DefaultIndex` from `transforms[selection]` and
`points.take(selection)`; every other variant uses the base implementation
`take_elements(selection)`. -/
def Sample.subset (s : Sample) (mask : List Bool) : Sample :=
  match s with
  | .defaultIndex space fromdims sizes =>
      .defaultIndex space fromdims
        (((Sample.defaultIndex space fromdims sizes).subsetSel mask).map
          (fun i => sizes.getD i 0))
  | .customIndex space fromdims sizes index =>
      .defaultIndex space fromdims
        (((Sample.customIndex space fromdims sizes index).subsetSel mask).map
          (fun i => sizes.getD i 0))
  | s => s.takeElements (s.subsetSel mask)

/-- Position of the first occurrence of `v` in `l` (`l.length` when absent);
this is the value `numpy.unique(...  return_inverse=True)` assigns to an
occurrence of `v`. -/
def idxOfNat : List Nat → Nat → Nat
  | [], _ => 0
  | a :: t, v => if a = v then 0 else idxOfNat t v + 1

/-- The sorted list of distinct values of `l`, as returned by
`numpy.unique`. -/
def sortDedup (l : List Nat) : List Nat :=
  (List.insertionSort (· ≤ ·) l).dedup

/-- `numpy.ravel_multi_index` in C order: `pairs` zips one multi-index with
the radices (`dims`). -/
def ravelMulti (pairs : List (Nat × Nat)) : Nat :=
  pairs.foldl (fun acc x => acc * x.2 + x.1) 0

/-- The `ielems[isample]` row computed by the loops in `_Zip.__init__`: for
each element of `s`, write its index at the positions `s.getindex(ielem)`.
`numpy.empty` leaves the array uninitialised; the model initialises with
zeros, and every theorem below assumes each point is covered by some
element, which makes the initial value irrelevant. -/
def assignIelems (npoints : Nat) (s : Sample) : List Nat :=
  (List.range s.nelems).foldl
    (fun acc ielem => (s.getindexD ielem).foldl (fun a p => a.set p ielem) acc)
    (List.replicate npoints 0)

/-- The tuple `(ielems[0][p], ..., ielems[N-1][p])` of constituent element
indices of point `p`. -/
def zipTuple (samples : List Sample) (npoints p : Nat) : List Nat :=
  samples.map (fun s => (assignIelems npoints s).getD p 0)

/-- `numpy.ravel_multi_index(ielems, nelems)` at point `p`. -/
def zipFlat (samples : List Sample) (npoints p : Nat) : Nat :=
  ravelMulti ((zipTuple samples npoints p).zip (samples.map Sample.nelems))

/-- The flattened per-point element tuples of `_Zip.__init__`. -/
def zipFlatList (samples : List Sample) (npoints : Nat) : List Nat :=
  (List.range npoints).map (zipFlat samples npoints)

/-- The first return value of `numpy.unique(flat_ielems, ...)`: the sorted
distinct flattened tuples. -/
def zipUniq (samples : List Sample) (npoints : Nat) : List Nat :=
  sortDedup (zipFlatList samples npoints)

/-- The `return_inverse` array of `numpy.unique`: per point, the position of
its flattened tuple in `zipUniq`. -/
def zipInverse (samples : List Sample) (npoints : Nat) : List Nat :=
  (zipFlatList samples npoints).map (idxOfNat (zipUniq samples npoints))

/-- The `return_counts` array of `numpy.unique`: the multiplicity of each
distinct flattened tuple, i.e. the point count of each merged element. -/
def zipSizes (samples : List Sample) (npoints : Nat) : List Nat :=
  (zipUniq samples npoints).map (fun v => (zipFlatList samples npoints).count v)

/-- `self._offsets = numpy.cumsum([0, *sizes])`. -/
def zipOffsets (samples : List Sample) (npoints : Nat) : List Nat :=
  cumsum (zipSizes samples npoints)

/-- The points with inverse value `k`: the `k`-th merged element's points in
increasing point order. -/
def zipGroup (samples : List Sample) (npoints k : Nat) : List Nat :=
  (List.range npoints).filter
    (fun p => (zipInverse samples npoints).getD p 0 == k)

/-- `self._indices = numpy.argsort(inverse)`, realised as the stable argsort:
positions grouped by increasing inverse value, ties in position order.
(`numpy.argsort` does not specify the relative order of ties; any argsort of
`inverse` yields the same merged-element partition.) -/
def zipIndices (samples : List Sample) (npoints : Nat) : List Nat :=
  (List.range (zipUniq samples npoints).length).flatMap
    (zipGroup samples npoints)

/-- `_Zip.__init__`: check equal point counts and non-overlapping spaces
(`ValueError` otherwise), flatten the per-point element tuples, deduplicate
(`numpy.unique` with inverse and counts), and sort the points by merged
element (`numpy.argsort(inverse)`, realised here as the stable argsort:
positions grouped by increasing inverse value, ties in position order).
`samples[0]` on an empty argument list raises `IndexError`. -/
def zipE : List Sample → Except PyError Sample
  | [] => .error .indexError
  | s0 :: rest =>
      let samples := s0 :: rest
      let npoints := s0.npoints
      let spacesAll := (samples.map Sample.spaces).flatten
      if ¬ samples.all (fun s => s.npoints == npoints) then .error .valueError
      else if spacesAll.dedup.length < spacesAll.length then .error .valueError
      else
        .ok (.zipped spacesAll s0.ndims (zipOffsets samples npoints)
          (zipSizes samples npoints) (zipIndices samples npoints) npoints)

/-- The evaluable-graph node built by `basis`; only its construction-time
validation behaviour matters for the claims, but the structure mirrors what
each variant builds: a `_Basis` for transform-chains samples, an empty zeros
array for `_Empty`, the raveled outer product for `_Mul`. -/
inductive BasisNode where
  | leafBasis (interpolation : String) (npoints : Nat)
  | zeros (n : Nat)
  | mulBasis (b1 b2 : BasisNode)
deriving DecidableEq, Repr

/-- `Sample.basis(interpolation)` per variant: the transform-chains variants
build `_Basis(self, interpolation)` whose `__init__` raises `ValueError` for
an interpolation other than `"none"`/`"nearest"`; `_Empty.basis` returns
`zeros((0,))` without looking at the argument; `_Mul.basis` combines the
factor bases; every other variant falls back to the base `Sample.basis`,
which raises `NotImplementedError`. -/
def Sample.basisE : Sample → String → Except PyError BasisNode
  | .defaultIndex _ _ sizes, interpolation =>
      if interpolation = "none" ∨ interpolation = "nearest" then
        .ok (.leafBasis interpolation sizes.sum)
      else .error .valueError
  | .customIndex _ _ sizes _, interpolation =>
      if interpolation = "none" ∨ interpolation = "nearest" then
        .ok (.leafBasis interpolation sizes.sum)
      else .error .valueError
  | .empty _ _, _ => .ok (.zeros 0)
  | .mul s1 s2, interpolation => do
      let b1 ← s1.basisE interpolation
      let b2 ← s2.basisE interpolation
      pure (.mulBasis b1 b2)
  | .add _ _, _ => .error .notImplementedError
  | .zipped _ _ _ _ _ _, _ => .error .notImplementedError
  | .takeElems _ _, _ => .error .notImplementedError

/-- Structural well-formedness of the stored arrays, mirroring the asserted
or maintained invariants of the code: a `_CustomIndex` index array has one
entry per parent point; `_Add` operands have equal spaces; a `_Zip` object's
arrays are as `_Zip.__init__` computes them (`zipE_wfb` proves that `zipE`
establishes this); `_TakeElements` indices are non-empty and in range. -/
def Sample.wfb : Sample → Bool
  | .defaultIndex _ _ _ => true
  | .customIndex _ _ sizes index => index.length == sizes.sum
  | .empty _ _ => true
  | .add s1 s2 => s1.spaces == s2.spaces && s1.wfb && s2.wfb
  | .mul s1 s2 => s1.wfb && s2.wfb
  | .zipped _ _ offsets sizes indices npoints =>
      offsets == cumsum sizes && indices.length == npoints && npoints == sizes.sum
  | .takeElems parent indices =>
      !indices.isEmpty && indices.all (fun i => i < parent.nelems) && parent.wfb

/-- Every point of `s` belongs to at least one element: the data-model
invariant that the union of `getindex(e)` over all elements covers the
global point range. -/
def Sample.coversB (s : Sample) : Bool :=
  (List.range s.npoints).all (fun p =>
    (List.range s.nelems).any (fun e => (s.getindexD e).contains p))

/-- Distinct elements of `s` own disjoint point sets. -/
def Sample.disjB (s : Sample) : Bool :=
  (List.range s.nelems).all (fun e1 =>
    (List.range s.nelems).all (fun e2 =>
      e1 == e2 || (s.getindexD e1).all (fun p => !(s.getindexD e2).contains p)))

/-- `count_true` of a boolean mask. -/
def countTrue (mask : List Bool) : Nat :=
  (mask.filter (· = true)).length

/-- The per-element point counts of `s` as observed through `getindex`. -/
def sizesList (s : Sample) : List Nat :=
  (List.range s.nelems).map (fun k => (s.getindexD k).length)

/-- `take_elements` delegates through `_TakeElements` parents and splits at
`_Add`; every other variant handles the indices itself.  This predicate
holds when that delegation spine contains no `_Add` (no Sum), i.e. for
exactly the variants whose `take_elements` keeps the requested element
order. -/
def sumFree : Sample → Bool
  | .add _ _ => false
  | .takeElems parent _ => sumFree parent
  | _ => true

/-- The scenario sample over space `X`: one element containing three
points. -/
def sampleX : Sample := .defaultIndex "X" 1 [3]

/-- The scenario sample over space `Y`: three elements of one point each. -/
def sampleY : Sample := .defaultIndex "Y" 1 [1, 1, 1]

/-- The zipped sample of the scenario: `zip` of `sampleX` and `sampleY`. -/
def zipXY : Sample :=
  match zipE [sampleX, sampleY] with
  | .ok z => z
  | .error _ => .empty [] 0

/-- A one-element, one-point sample over space `X`. -/
def oneElemOnePoint : Sample := .defaultIndex "X" 1 [1]

/-- A sample over space `X` with one element containing zero points — a
sample with `npoints == 0` but `nelems == 1`. -/
def oneElemZeroPoints : Sample := .defaultIndex "X" 1 [0]

/-- A `_Add` of two one-element leaves over space `X`, with element point
counts `1` and `2`. -/
def sumTwoLeaves : Sample := .add (.defaultIndex "X" 1 [1]) (.defaultIndex "X" 1 [2])

/-! ### Basic lemmas about `cumsum` and generic lists -/

theorem cumsum_length (l : List Nat) : (cumsum l).length = l.length + 1 := by
  induction l with
  | nil => rfl
  | cons a t ih => simp [cumsum, ih]

theorem cumsum_getD (l : List Nat) (i : Nat) (h : i ≤ l.length) :
    (cumsum l).getD i 0 = (l.take i).sum := by
  induction l generalizing i with
  | nil =>
    simp only [List.length_nil, Nat.le_zero] at h
    subst h
    rfl
  | cons a t ih =>
    cases i with
    | zero => rfl
    | succ j =>
      have hj : j ≤ t.length := by simpa using h
      have hlt : j < (cumsum t).length := by rw [cumsum_length]; omega
      simp only [cumsum, List.getD_cons_succ, List.take_succ_cons, List.sum_cons]
      rw [List.getD_eq_getElem _ _ (by simpa using hlt), List.getElem_map,
        ← List.getD_eq_getElem _ 0 hlt, ih j hj]

theorem take_sum_add_getD_le (l : List Nat) (i : Nat) (h : i < l.length) :
    (l.take i).sum + l.getD i 0 ≤ l.sum := by
  have hsplit := List.sum_take_add_sum_drop l i
  have hdrop : l.drop i = l[i] :: l.drop (i + 1) := List.drop_eq_getElem_cons h
  rw [List.getD_eq_getElem _ _ h]
  rw [hdrop, List.sum_cons] at hsplit
  omega

theorem map_getD_range {α : Type} (l : List α) (d : α) :
    (List.range l.length).map (fun i => l.getD i d) = l := by
  apply List.ext_getElem
  · simp
  · intro i h1 h2
    simp only [List.getElem_map, List.getElem_range]
    exact List.getD_eq_getElem l d (by simpa using h2)

theorem elemSizes_length (s : Sample) : s.elemSizes.length = s.nelems := by
  induction s with
  | defaultIndex space fromdims sizes => rfl
  | customIndex space fromdims sizes index => rfl
  | empty spaces ndims => rfl
  | add s1 s2 ih1 ih2 => simp [Sample.elemSizes, Sample.nelems, ih1, ih2]
  | mul s1 s2 ih1 ih2 =>
    simp only [Sample.elemSizes, Sample.nelems, List.length_flatMap]
    have h1 : List.map (List.length ∘ fun a => List.map (a * ·) s2.elemSizes) s1.elemSizes
        = List.replicate s1.elemSizes.length s2.elemSizes.length := by
      rw [← List.map_const]
      apply List.map_congr_left
      intro a _
      simp [Function.comp, Function.const]
    rw [h1, List.sum_replicate, smul_eq_mul, ih1, ih2]
  | zipped spaces ndims offsets sizes indices npoints => rfl
  | takeElems parent indices ih => simp [Sample.elemSizes, Sample.nelems]

theorem flatten_drop_take {α : Type} (gs : List (List α)) (k : Nat) (h : k < gs.length) :
    ((gs.flatten).drop ((cumsum (gs.map List.length)).getD k 0)).take
      ((gs.map List.length).getD k 0) = gs.getD k [] := by
  induction gs generalizing k with
  | nil => simp at h
  | cons g gs ih =>
    cases k with
    | zero =>
      show ((g :: gs).flatten.drop 0).take g.length = g
      rw [List.drop_zero, List.flatten_cons, List.take_left]
    | succ j =>
      have hj : j < gs.length := by simpa using h
      have hc : (cumsum ((g :: gs).map List.length)).getD (j + 1) 0
          = g.length + (cumsum (gs.map List.length)).getD j 0 := by
        rw [List.map_cons, cumsum_getD _ _ (by simp; omega), List.take_succ_cons,
          List.sum_cons, cumsum_getD _ _ (by simp; omega)]
      rw [hc, List.flatten_cons, List.drop_append]
      simpa using ih j hj

theorem flatMap_map_getD {α : Type} (l1 l2 : List Nat) (f : Nat → Nat → α)
    (i1 i2 : Nat) (d : α) (h1 : i1 < l1.length) (h2 : i2 < l2.length) :
    (l1.flatMap (fun a => l2.map (f a))).getD (i1 * l2.length + i2) d
      = f (l1.getD i1 0) (l2.getD i2 0) := by
  induction l1 generalizing i1 with
  | nil => simp at h1
  | cons a l1 ih =>
    cases i1 with
    | zero =>
      rw [List.flatMap_cons, Nat.zero_mul, Nat.zero_add,
        List.getD_append _ _ _ _ (by simpa using h2), List.getD_cons_zero,
        List.getD_eq_getElem _ _ (by simpa using h2), List.getElem_map,
        List.getD_eq_getElem _ _ h2]
    | succ j =>
      have hj : j < l1.length := by simpa using h1
      rw [List.flatMap_cons, List.getD_append_right _ _ _ _ (by simp; ring_nf; omega)]
      rw [List.getD_cons_succ, ← ih j hj]
      congr 1
      simp
      ring_nf
      omega

theorem drop_take_two {α : Type} [Inhabited α] (l : List α) (i : Nat)
    (h : i + 1 < l.length) :
    (l.drop i).take 2 = [l.getD i default, l.getD (i + 1) default] := by
  rw [List.drop_eq_getElem_cons (by omega), List.drop_eq_getElem_cons h]
  rw [List.getD_eq_getElem _ _ (by omega), List.getD_eq_getElem _ _ h]
  rfl

theorem drop_take_one {α : Type} [Inhabited α] (l : List α) (i : Nat)
    (h1 : i + 1 = l.length) :
    (l.drop i).take 2 = [l.getD i default] := by
  rw [List.drop_eq_getElem_cons (by omega), List.getD_eq_getElem _ _ (by omega)]
  have : l.drop (i + 1) = [] := List.drop_eq_nil_of_le (by omega)
  rw [this]
  rfl

/-! ### Coherence of `getindexE` with the per-element point counts -/

theorem getindexE_ok_of_lt (s : Sample) :
    s.wfb = true → ∀ i, i < s.nelems →
      ∃ l, s.getindexE i = .ok l ∧ l.length = s.elemSizes.getD i 0 := by
  induction s with
  | defaultIndex space fromdims sizes =>
    intro _ i hi
    replace hi : i < sizes.length := hi
    refine ⟨List.range' ((cumsum sizes).getD i 0) (sizes.getD i 0), ?_, ?_⟩
    · show (if i < sizes.length then _ else _) = _
      rw [if_pos hi]
    · simp [List.length_range', Sample.elemSizes]
  | customIndex space fromdims sizes index =>
    intro hwf i hi
    replace hi : i < sizes.length := hi
    replace hwf : index.length = sizes.sum := by
      simpa [Sample.wfb] using hwf
    have hall : (List.range' ((cumsum sizes).getD i 0) (sizes.getD i 0)).all
        (· < index.length) = true := by
      rw [List.all_eq_true]
      intro p hp
      rw [List.mem_range'_1] at hp
      have hle := take_sum_add_getD_le sizes i hi
      rw [cumsum_getD _ _ (Nat.le_of_lt hi)] at hp
      simp only [decide_eq_true_eq]
      omega
    refine ⟨(List.range' ((cumsum sizes).getD i 0) (sizes.getD i 0)).map
      (fun j => index.getD j 0), ?_, ?_⟩
    · show (if i < sizes.length then _ else _) = _
      rw [if_pos hi]
      simp only [hall, if_pos]
    · simp [List.length_range', Sample.elemSizes]
  | empty spaces ndims =>
    intro _ i hi
    exact absurd hi (by simp [Sample.nelems])
  | add s1 s2 ih1 ih2 =>
    intro hwf i hi
    replace hwf : s1.spaces = s2.spaces ∧ s1.wfb = true ∧ s2.wfb = true := by
      simpa [Sample.wfb, Bool.and_eq_true, beq_iff_eq, and_assoc] using hwf
    replace hi : i < s1.nelems + s2.nelems := hi
    show ∃ l, (if i < s1.nelems then s1.getindexE i
        else (s2.getindexE (i - s1.nelems)).map (fun l => l.map (· + s1.npoints)))
        = .ok l ∧ l.length = (s1.elemSizes ++ s2.elemSizes).getD i 0
    by_cases h1 : i < s1.nelems
    · obtain ⟨l, hok, hlen⟩ := ih1 hwf.2.1 i h1
      refine ⟨l, by rw [if_pos h1, hok], ?_⟩
      rw [List.getD_append _ _ _ _ (by rw [elemSizes_length]; exact h1), hlen]
    · obtain ⟨l, hok, hlen⟩ := ih2 hwf.2.2 (i - s1.nelems) (by omega)
      refine ⟨l.map (· + s1.npoints), by rw [if_neg h1, hok]; rfl, ?_⟩
      rw [List.getD_append_right _ _ _ _ (by rw [elemSizes_length]; omega),
        List.length_map, hlen, elemSizes_length]
  | mul s1 s2 ih1 ih2 =>
    intro hwf i hi
    replace hwf : s1.wfb = true ∧ s2.wfb = true := by
      simpa [Sample.wfb, Bool.and_eq_true] using hwf
    replace hi : i < s1.nelems * s2.nelems := hi
    have hn2 : s2.nelems ≠ 0 := by
      intro h
      rw [h, Nat.mul_zero] at hi
      omega
    have hi1 : i / s2.nelems < s1.nelems :=
      Nat.div_lt_of_lt_mul (by rwa [Nat.mul_comm] at hi)
    have hi2 : i % s2.nelems < s2.nelems := Nat.mod_lt _ (Nat.pos_of_ne_zero hn2)
    obtain ⟨l1, hok1, hlen1⟩ := ih1 hwf.1 _ hi1
    obtain ⟨l2, hok2, hlen2⟩ := ih2 hwf.2 _ hi2
    refine ⟨l1.flatMap (fun a => l2.map (fun b => a * s2.npoints + b)), ?_, ?_⟩
    · show (if s2.nelems = 0 then _ else _) = _
      rw [if_neg hn2]
      rw [show s1.getindexE (i / s2.nelems) = .ok l1 from hok1]
      rw [show s2.getindexE (i % s2.nelems) = .ok l2 from hok2]
      rfl
    · rw [List.length_flatMap]
      have hconst : List.map (List.length ∘ fun a =>
          List.map (fun b => a * s2.npoints + b) l2) l1
          = List.replicate l1.length l2.length := by
        rw [← List.map_const]
        apply List.map_congr_left
        intro a _
        simp [Function.comp, Function.const]
      rw [hconst, List.sum_replicate, smul_eq_mul, hlen1, hlen2]
      have hflat := flatMap_map_getD s1.elemSizes s2.elemSizes (fun a b => a * b)
        (i / s2.nelems) (i % s2.nelems) 0
        (by rw [elemSizes_length]; exact hi1) (by rw [elemSizes_length]; exact hi2)
      rw [elemSizes_length] at hflat
      have hieq : (i / s2.nelems) * s2.nelems + i % s2.nelems = i := by
        rw [Nat.mul_comm]
        exact Nat.div_add_mod i s2.nelems
      show _ = (s1.elemSizes.flatMap fun a => s2.elemSizes.map (a * ·)).getD i 0
      conv_rhs => rw [← hieq]
      rw [hflat]
  | zipped spaces ndims offsets sizes indices npoints =>
    intro hwf i hi
    replace hwf : offsets = cumsum sizes ∧ indices.length = npoints
        ∧ npoints = sizes.sum := by
      simpa [Sample.wfb, Bool.and_eq_true, beq_iff_eq, and_assoc] using hwf
    obtain ⟨hoff, hlen, hsum⟩ := hwf
    replace hi : i < sizes.length := hi
    have hofflen : offsets.length = sizes.length + 1 := by rw [hoff, cumsum_length]
    have htake : (offsets.drop i).take 2
        = [offsets.getD i 0, offsets.getD (i + 1) 0] := by
      have := drop_take_two offsets i (by omega)
      simpa using this
    have hgi : offsets.getD i 0 = (sizes.take i).sum := by
      rw [hoff, cumsum_getD _ _ (Nat.le_of_lt hi)]
    have hgi1 : offsets.getD (i + 1) 0 = (sizes.take i).sum + sizes.getD i 0 := by
      rw [hoff, cumsum_getD _ _ (by omega), List.take_succ, List.sum_append,
        List.getElem?_eq_getElem hi, List.getD_eq_getElem _ _ hi]
      simp
    refine ⟨(indices.drop (offsets.getD i 0)).take
      (offsets.getD (i + 1) 0 - offsets.getD i 0), ?_, ?_⟩
    · show (match (offsets.drop i).take 2 with
        | [a, b] => Except.ok ((indices.drop a).take (b - a))
        | [a] => Except.ok (indices.take a)
        | _ => Except.error PyError.typeError) = _
      rw [htake]
    · have hb : offsets.getD (i + 1) 0 - offsets.getD i 0 = sizes.getD i 0 := by
        rw [hgi, hgi1]
        omega
      rw [hb, List.length_take, List.length_drop, hlen, hsum, hgi]
      have := take_sum_add_getD_le sizes i hi
      show min (sizes.getD i 0) _ = sizes.getD i 0
      omega
  | takeElems parent indices ih =>
    intro _ i hi
    replace hi : i < indices.length := hi
    refine ⟨List.range'
      (((cumsum (indices.map (fun j => parent.elemSizes.getD j 0))).getD i 0))
      ((indices.map (fun j => parent.elemSizes.getD j 0)).getD i 0), ?_, ?_⟩
    · show (if i < indices.length then _ else _) = _
      rw [if_pos hi]
    · simp [List.length_range', Sample.elemSizes]

theorem getindexD_length (s : Sample) (hwf : s.wfb = true) (i : Nat)
    (hi : i < s.nelems) : (s.getindexD i).length = s.elemSizes.getD i 0 := by
  obtain ⟨l, hok, hlen⟩ := getindexE_ok_of_lt s hwf i hi
  rw [Sample.getindexD, hok]
  exact hlen

theorem sizesList_eq_elemSizes (s : Sample) (hwf : s.wfb = true) :
    sizesList s = s.elemSizes := by
  unfold sizesList
  have h1 : (List.range s.nelems).map (fun k => (s.getindexD k).length)
      = (List.range s.nelems).map (fun k => s.elemSizes.getD k 0) := by
    apply List.map_congr_left
    intro k hk
    exact getindexD_length s hwf k (List.mem_range.mp hk)
  rw [h1, ← elemSizes_length s, map_getD_range]

/-! ### Lemmas about `addS` and `takeElements` -/

theorem getD_map_lt {α β : Type} (f : α → β) (l : List α) (i : Nat) (d1 : β)
    (d2 : α) (h : i < l.length) : (l.map f).getD i d1 = f (l.getD i d2) := by
  rw [List.getD_eq_getElem _ _ (by simpa using h), List.getElem_map,
    List.getD_eq_getElem _ _ h]

theorem addS_npoints (s1 s2 : Sample) :
    (s1.addS s2).npoints = s1.npoints + s2.npoints := by
  unfold Sample.addS
  by_cases h2 : s2.npoints = 0
  · rw [if_pos h2, h2]
    rfl
  · rw [if_neg h2]
    by_cases h1 : s1.npoints = 0
    · rw [if_pos h1, h1, Nat.zero_add]
    · rw [if_neg h1]
      rfl

theorem getindexD_add_left (s1 s2 : Sample) (k : Nat) (hk : k < s1.nelems) :
    (Sample.add s1 s2).getindexD k = s1.getindexD k := by
  unfold Sample.getindexD
  show (match (if k < s1.nelems then s1.getindexE k
      else (s2.getindexE (k - s1.nelems)).map (fun l => l.map (· + s1.npoints))) with
    | .ok l => l | .error _ => ([] : List Nat)) = _
  rw [if_pos hk]

theorem getindexD_add_right (s1 s2 : Sample) (k : Nat) (hk : ¬ k < s1.nelems) :
    (Sample.add s1 s2).getindexD k
      = (s2.getindexD (k - s1.nelems)).map (· + s1.npoints) := by
  unfold Sample.getindexD
  show (match (if k < s1.nelems then s1.getindexE k
      else (s2.getindexE (k - s1.nelems)).map (fun l => l.map (· + s1.npoints))) with
    | .ok l => l | .error _ => ([] : List Nat)) = _
  rw [if_neg hk]
  cases s2.getindexE (k - s1.nelems) with
  | ok l => rfl
  | error e => rfl

theorem sizesList_empty (spaces : List String) (ndims : Nat) :
    sizesList (.empty spaces ndims) = [] := by
  simp [sizesList, Sample.nelems]

theorem sizesList_add (s1 s2 : Sample) :
    sizesList (.add s1 s2) = sizesList s1 ++ sizesList s2 := by
  unfold sizesList
  show (List.range (s1.nelems + s2.nelems)).map _ = _
  rw [List.range_add, List.map_append, List.map_map]
  congr 1
  · apply List.map_congr_left
    intro k hk
    rw [getindexD_add_left s1 s2 k (List.mem_range.mp hk)]
  · apply List.map_congr_left
    intro k hk
    have h1 : ¬ s1.nelems + k < s1.nelems := by omega
    show ((Sample.add s1 s2).getindexD (s1.nelems + k)).length = _
    rw [getindexD_add_right s1 s2 _ h1, List.length_map,
      show s1.nelems + k - s1.nelems = k by omega]

theorem takeElements_nil (s : Sample) :
    s.takeElements [] = .empty s.spaces s.ndims := by
  induction s with
  | defaultIndex space fromdims sizes => rfl
  | customIndex space fromdims sizes index => rfl
  | empty spaces ndims => rfl
  | add s1 s2 ih1 ih2 =>
    show (s1.takeElements []).addS (s2.takeElements []) = _
    rw [ih1, ih2]
    rfl
  | mul s1 s2 ih1 ih2 => rfl
  | zipped spaces ndims offsets sizes indices npoints => rfl
  | takeElems parent indices ih =>
    show parent.takeElements [] = _
    rw [ih]
    rfl

theorem takeElements_npoints (s : Sample) :
    s.wfb = true → ∀ idxs : List Nat, (∀ i ∈ idxs, i < s.nelems) →
      (s.takeElements idxs).npoints
        = (idxs.map (fun i => s.elemSizes.getD i 0)).sum := by
  induction s with
  | defaultIndex space fromdims sizes =>
    intro _ idxs _
    cases idxs with
    | nil => rfl
    | cons a t => rfl
  | customIndex space fromdims sizes index =>
    intro _ idxs _
    cases idxs with
    | nil => rfl
    | cons a t => rfl
  | empty spaces ndims =>
    intro _ idxs hb
    cases idxs with
    | nil => rfl
    | cons a t => exact absurd (hb a (List.mem_cons_self a t)) (by simp [Sample.nelems])
  | add s1 s2 ih1 ih2 =>
    intro hwf idxs hb
    replace hwf : s1.spaces = s2.spaces ∧ s1.wfb = true ∧ s2.wfb = true := by
      simpa [Sample.wfb, Bool.and_eq_true, beq_iff_eq, and_assoc] using hwf
    show ((s1.takeElements (idxs.filter (fun i => decide (i < s1.nelems)))).addS
      (s2.takeElements
        ((idxs.filter (fun i => !decide (i < s1.nelems))).map (· - s1.nelems)))).npoints = _
    rw [addS_npoints]
    rw [ih1 hwf.2.1 _ (by
      intro i hi
      rw [List.mem_filter] at hi
      simpa using hi.2)]
    rw [ih2 hwf.2.2 _ (by
      intro j hj
      rw [List.mem_map] at hj
      obtain ⟨i, hi, rfl⟩ := hj
      rw [List.mem_filter] at hi
      have hb1 := hb i hi.1
      have hb2 : ¬ i < s1.nelems := by simpa using hi.2
      have : i < s1.nelems + s2.nelems := hb1
      omega)]
    have hperm : (idxs.map (fun i => (Sample.add s1 s2).elemSizes.getD i 0)).sum
        = ((idxs.filter (fun i => decide (i < s1.nelems))).map
            (fun i => (Sample.add s1 s2).elemSizes.getD i 0)).sum
          + ((idxs.filter (fun i => !decide (i < s1.nelems))).map
            (fun i => (Sample.add s1 s2).elemSizes.getD i 0)).sum := by
      rw [← List.sum_append, ← List.map_append]
      exact (((List.filter_append_perm _ idxs).map _).sum_eq).symm
    rw [hperm]
    congr 1
    · apply congrArg
      apply List.map_congr_left
      intro i hi
      rw [List.mem_filter] at hi
      have hlt : i < s1.nelems := by simpa using hi.2
      exact (List.getD_append s1.elemSizes s2.elemSizes 0 i
        (by rw [elemSizes_length]; exact hlt)).symm
    · rw [List.map_map]
      apply congrArg
      apply List.map_congr_left
      intro i hi
      rw [List.mem_filter] at hi
      have hge : ¬ i < s1.nelems := by simpa using hi.2
      have h := List.getD_append_right s1.elemSizes s2.elemSizes 0 i
        (by rw [elemSizes_length]; omega)
      rw [elemSizes_length] at h
      exact h.symm
  | mul s1 s2 ih1 ih2 =>
    intro _ idxs _
    cases idxs with
    | nil => rfl
    | cons a t => rfl
  | zipped spaces ndims offsets sizes indices npoints =>
    intro _ idxs _
    cases idxs with
    | nil => rfl
    | cons a t => rfl
  | takeElems parent pindices ih =>
    intro hwf idxs hb
    have hwf' : (∀ i ∈ pindices, i < parent.nelems) ∧ parent.wfb = true := by
      rw [show (Sample.takeElems parent pindices).wfb
          = (!pindices.isEmpty && pindices.all (fun i => decide (i < parent.nelems))
            && parent.wfb) from rfl, Bool.and_eq_true, Bool.and_eq_true] at hwf
      refine ⟨?_, hwf.2⟩
      intro i hi
      have h2 := hwf.1.2
      rw [List.all_eq_true] at h2
      simpa using h2 i hi
    show (parent.takeElements (idxs.map (fun i => pindices.getD i 0))).npoints = _
    rw [ih hwf'.2 _ (by
      intro j hj
      rw [List.mem_map] at hj
      obtain ⟨i, hi, rfl⟩ := hj
      have hilt : i < pindices.length := hb i hi
      refine hwf'.1 _ ?_
      rw [List.getD_eq_getElem _ _ hilt]
      exact List.getElem_mem hilt)]
    rw [List.map_map]
    apply congrArg
    apply List.map_congr_left
    intro i hi
    show parent.elemSizes.getD (pindices.getD i 0) 0
      = (pindices.map (fun j => parent.elemSizes.getD j 0)).getD i 0
    exact (getD_map_lt (fun j => parent.elemSizes.getD j 0) pindices i 0 0 (hb i hi)).symm

theorem sizesList_takeElems (s : Sample) (idxs : List Nat) (hwf : s.wfb = true)
    (hb : ∀ i ∈ idxs, i < s.nelems) (hne : idxs ≠ []) :
    sizesList (.takeElems s idxs) = idxs.map (fun i => s.elemSizes.getD i 0) := by
  rw [sizesList_eq_elemSizes]
  · rfl
  · show (!idxs.isEmpty && idxs.all (fun i => decide (i < s.nelems)) && s.wfb) = true
    rw [Bool.and_eq_true, Bool.and_eq_true]
    refine ⟨⟨?_, ?_⟩, hwf⟩
    · cases idxs with
      | nil => exact absurd rfl hne
      | cons a t => rfl
    · rw [List.all_eq_true]
      intro i hi
      simpa using hb i hi

theorem takeElements_sizes_perm (s : Sample) :
    s.wfb = true → ∀ idxs : List Nat, (∀ i ∈ idxs, i < s.nelems) →
      (∀ i ∈ idxs, 0 < s.elemSizes.getD i 0) →
      (sizesList (s.takeElements idxs)).Perm
        (idxs.map (fun i => s.elemSizes.getD i 0)) := by
  induction s with
  | defaultIndex space fromdims sizes =>
    intro hwf idxs hb _
    cases idxs with
    | nil =>
      show (sizesList (.empty _ _)).Perm _
      rw [sizesList_empty]
      exact List.Perm.nil
    | cons a t =>
      show (sizesList (.takeElems (Sample.defaultIndex space fromdims sizes)
        (a :: t))).Perm _
      rw [sizesList_takeElems _ _ hwf hb (by simp)]
  | customIndex space fromdims sizes index =>
    intro hwf idxs hb _
    cases idxs with
    | nil =>
      show (sizesList (.empty _ _)).Perm _
      rw [sizesList_empty]
      exact List.Perm.nil
    | cons a t =>
      show (sizesList (.takeElems (Sample.customIndex space fromdims sizes index)
        (a :: t))).Perm _
      rw [sizesList_takeElems _ _ hwf hb (by simp)]
  | empty spaces ndims =>
    intro _ idxs hb _
    cases idxs with
    | nil =>
      show (sizesList (.empty _ _)).Perm _
      rw [sizesList_empty]
      exact List.Perm.nil
    | cons a t => exact absurd (hb a (List.mem_cons_self a t)) (by simp [Sample.nelems])
  | mul s1 s2 ih1 ih2 =>
    intro hwf idxs hb _
    cases idxs with
    | nil =>
      show (sizesList (.empty _ _)).Perm _
      rw [sizesList_empty]
      exact List.Perm.nil
    | cons a t =>
      show (sizesList (.takeElems (Sample.mul s1 s2) (a :: t))).Perm _
      rw [sizesList_takeElems _ _ hwf hb (by simp)]
  | zipped spaces ndims offsets sizes indices npoints =>
    intro hwf idxs hb _
    cases idxs with
    | nil =>
      show (sizesList (.empty _ _)).Perm _
      rw [sizesList_empty]
      exact List.Perm.nil
    | cons a t =>
      show (sizesList (.takeElems (Sample.zipped spaces ndims offsets sizes
        indices npoints) (a :: t))).Perm _
      rw [sizesList_takeElems _ _ hwf hb (by simp)]
  | add s1 s2 ih1 ih2 =>
    intro hwf idxs hb hpos
    obtain ⟨hsp, hwf1, hwf2⟩ : s1.spaces = s2.spaces ∧ s1.wfb = true ∧ s2.wfb = true := by
      simpa [Sample.wfb, Bool.and_eq_true, beq_iff_eq, and_assoc] using hwf
    have hbsum : ∀ i ∈ idxs, i < s1.nelems + s2.nelems := hb
    -- elementwise value of the sizes of the sum at indices of either operand
    have hval1 : ∀ i ∈ idxs.filter (fun i => decide (i < s1.nelems)),
        (Sample.add s1 s2).elemSizes.getD i 0 = s1.elemSizes.getD i 0 := by
      intro i hi
      rw [List.mem_filter] at hi
      exact List.getD_append s1.elemSizes s2.elemSizes 0 i
        (by rw [elemSizes_length]; simpa using hi.2)
    have hval2 : ∀ i ∈ idxs.filter (fun i => !decide (i < s1.nelems)),
        (Sample.add s1 s2).elemSizes.getD i 0
          = s2.elemSizes.getD (i - s1.nelems) 0 := by
      intro i hi
      rw [List.mem_filter] at hi
      have hge : ¬ i < s1.nelems := by simpa using hi.2
      have h := List.getD_append_right s1.elemSizes s2.elemSizes 0 i
        (by rw [elemSizes_length]; omega)
      rw [elemSizes_length] at h
      exact h
    have hb1 : ∀ i ∈ idxs.filter (fun i => decide (i < s1.nelems)), i < s1.nelems := by
      intro i hi
      rw [List.mem_filter] at hi
      simpa using hi.2
    have hb2 : ∀ j ∈ (idxs.filter (fun i => !decide (i < s1.nelems))).map
        (· - s1.nelems), j < s2.nelems := by
      intro j hj
      rw [List.mem_map] at hj
      obtain ⟨i, hi, rfl⟩ := hj
      rw [List.mem_filter] at hi
      have := hbsum i hi.1
      have hge : ¬ i < s1.nelems := by simpa using hi.2
      omega
    have hpos1 : ∀ i ∈ idxs.filter (fun i => decide (i < s1.nelems)),
        0 < s1.elemSizes.getD i 0 := by
      intro i hi
      rw [← hval1 i hi]
      exact hpos i (List.mem_of_mem_filter hi)
    have hpos2 : ∀ j ∈ (idxs.filter (fun i => !decide (i < s1.nelems))).map
        (· - s1.nelems), 0 < s2.elemSizes.getD j 0 := by
      intro j hj
      rw [List.mem_map] at hj
      obtain ⟨i, hi, rfl⟩ := hj
      rw [← hval2 i hi]
      exact hpos i (List.mem_of_mem_filter hi)
    have P1 := ih1 hwf1 _ hb1 hpos1
    have P2 := ih2 hwf2 _ hb2 hpos2
    -- the requested sizes split into the two filtered parts
    have hRHS : (idxs.map (fun i => (Sample.add s1 s2).elemSizes.getD i 0)).Perm
        ((idxs.filter (fun i => decide (i < s1.nelems))).map
            (fun i => s1.elemSizes.getD i 0)
          ++ ((idxs.filter (fun i => !decide (i < s1.nelems))).map
            (· - s1.nelems)).map (fun j => s2.elemSizes.getD j 0)) := by
      have hsplit := (List.filter_append_perm
        (fun i => decide (i < s1.nelems)) idxs).map
        (fun i => (Sample.add s1 s2).elemSizes.getD i 0)
      refine hsplit.symm.trans ?_
      rw [List.map_append, List.map_map]
      apply List.Perm.of_eq
      congr 1
      · exact List.map_congr_left hval1
      · refine List.map_congr_left ?_
        intro i hi
        exact hval2 i hi
    show (sizesList ((s1.takeElements
        (idxs.filter (fun i => decide (i < s1.nelems)))).addS
      (s2.takeElements ((idxs.filter (fun i => !decide (i < s1.nelems))).map
        (· - s1.nelems))))).Perm _
    unfold Sample.addS
    by_cases h2 : (s2.takeElements ((idxs.filter
        (fun i => !decide (i < s1.nelems))).map (· - s1.nelems))).npoints = 0
    · rw [if_pos h2]
      -- the second group must be empty, since all its elements are non-empty
      have hg2 : (idxs.filter (fun i => !decide (i < s1.nelems))).map
          (· - s1.nelems) = [] := by
        rw [takeElements_npoints s2 hwf2 _ hb2] at h2
        by_contra hne
        cases hg : (idxs.filter (fun i => !decide (i < s1.nelems))).map
            (· - s1.nelems) with
        | nil => exact hne hg
        | cons j t =>
          rw [hg] at h2
          have hj := hpos2 j (by rw [hg]; exact List.mem_cons_self j t)
          rw [List.map_cons, List.sum_cons] at h2
          omega
      refine P1.trans ?_
      rw [hg2] at hRHS
      simpa using hRHS.symm
    · rw [if_neg h2]
      by_cases h1 : (s1.takeElements
          (idxs.filter (fun i => decide (i < s1.nelems)))).npoints = 0
      · rw [if_pos h1]
        have hg1 : idxs.filter (fun i => decide (i < s1.nelems)) = [] := by
          rw [takeElements_npoints s1 hwf1 _ hb1] at h1
          by_contra hne
          cases hg : idxs.filter (fun i => decide (i < s1.nelems)) with
          | nil => exact hne hg
          | cons j t =>
            rw [hg] at h1
            have hj := hpos1 j (by rw [hg]; exact List.mem_cons_self j t)
            rw [List.map_cons, List.sum_cons] at h1
            omega
        refine P2.trans ?_
        rw [hg1] at hRHS
        simpa using hRHS.symm
      · rw [if_neg h1]
        rw [sizesList_add]
        exact (P1.append P2).trans hRHS.symm
  | takeElems parent pindices ih =>
    intro hwf idxs hb hpos
    have hwf' : (∀ i ∈ pindices, i < parent.nelems) ∧ parent.wfb = true := by
      rw [show (Sample.takeElems parent pindices).wfb
          = (!pindices.isEmpty && pindices.all (fun i => decide (i < parent.nelems))
            && parent.wfb) from rfl, Bool.and_eq_true, Bool.and_eq_true] at hwf
      refine ⟨?_, hwf.2⟩
      intro i hi
      have h2 := hwf.1.2
      rw [List.all_eq_true] at h2
      simpa using h2 i hi
    have hself : ∀ i ∈ idxs, (Sample.takeElems parent pindices).elemSizes.getD i 0
        = parent.elemSizes.getD (pindices.getD i 0) 0 := by
      intro i hi
      exact getD_map_lt (fun j => parent.elemSizes.getD j 0) pindices i 0 0 (hb i hi)
    have hbm : ∀ j ∈ idxs.map (fun i => pindices.getD i 0), j < parent.nelems := by
      intro j hj
      rw [List.mem_map] at hj
      obtain ⟨i, hi, rfl⟩ := hj
      have hilt : i < pindices.length := hb i hi
      refine hwf'.1 _ ?_
      rw [List.getD_eq_getElem _ _ hilt]
      exact List.getElem_mem hilt
    have hpm : ∀ j ∈ idxs.map (fun i => pindices.getD i 0),
        0 < parent.elemSizes.getD j 0 := by
      intro j hj
      rw [List.mem_map] at hj
      obtain ⟨i, hi, rfl⟩ := hj
      rw [← hself i hi]
      exact hpos i hi
    show (sizesList (parent.takeElements
      (idxs.map (fun i => pindices.getD i 0)))).Perm _
    refine (ih hwf'.2 _ hbm hpm).trans ?_
    rw [List.map_map]
    apply List.Perm.of_eq
    apply List.map_congr_left
    intro i hi
    exact (hself i hi).symm

theorem takeElements_sizes_eq (s : Sample) :
    sumFree s = true → s.wfb = true → ∀ idxs : List Nat,
      (∀ i ∈ idxs, i < s.nelems) →
      sizesList (s.takeElements idxs)
        = idxs.map (fun i => s.elemSizes.getD i 0) := by
  induction s with
  | defaultIndex space fromdims sizes =>
    intro _ hwf idxs hb
    cases idxs with
    | nil =>
      rw [takeElements_nil, sizesList_empty]
      rfl
    | cons a t =>
      show sizesList (.takeElems (Sample.defaultIndex space fromdims sizes)
        (a :: t)) = _
      rw [sizesList_takeElems _ _ hwf hb (by simp)]
  | customIndex space fromdims sizes index =>
    intro _ hwf idxs hb
    cases idxs with
    | nil =>
      rw [takeElements_nil, sizesList_empty]
      rfl
    | cons a t =>
      show sizesList (.takeElems (Sample.customIndex space fromdims sizes index)
        (a :: t)) = _
      rw [sizesList_takeElems _ _ hwf hb (by simp)]
  | empty spaces ndims =>
    intro _ _ idxs hb
    cases idxs with
    | nil =>
      rw [takeElements_nil, sizesList_empty]
      rfl
    | cons a t => exact absurd (hb a (List.mem_cons_self a t)) (by simp [Sample.nelems])
  | add s1 s2 ih1 ih2 =>
    intro hsf
    exact absurd hsf (by simp [sumFree])
  | mul s1 s2 ih1 ih2 =>
    intro _ hwf idxs hb
    cases idxs with
    | nil =>
      rw [takeElements_nil, sizesList_empty]
      rfl
    | cons a t =>
      show sizesList (.takeElems (Sample.mul s1 s2) (a :: t)) = _
      rw [sizesList_takeElems _ _ hwf hb (by simp)]
  | zipped spaces ndims offsets sizes indices npoints =>
    intro _ hwf idxs hb
    cases idxs with
    | nil =>
      rw [takeElements_nil, sizesList_empty]
      rfl
    | cons a t =>
      show sizesList (.takeElems (Sample.zipped spaces ndims offsets sizes
        indices npoints) (a :: t)) = _
      rw [sizesList_takeElems _ _ hwf hb (by simp)]
  | takeElems parent pindices ih =>
    intro hsf hwf idxs hb
    have hwf' : (∀ i ∈ pindices, i < parent.nelems) ∧ parent.wfb = true := by
      rw [show (Sample.takeElems parent pindices).wfb
          = (!pindices.isEmpty && pindices.all (fun i => decide (i < parent.nelems))
            && parent.wfb) from rfl, Bool.and_eq_true, Bool.and_eq_true] at hwf
      refine ⟨?_, hwf.2⟩
      intro i hi
      have h2 := hwf.1.2
      rw [List.all_eq_true] at h2
      simpa using h2 i hi
    have hbm : ∀ j ∈ idxs.map (fun i => pindices.getD i 0), j < parent.nelems := by
      intro j hj
      rw [List.mem_map] at hj
      obtain ⟨i, hi, rfl⟩ := hj
      have hilt : i < pindices.length := hb i hi
      refine hwf'.1 _ ?_
      rw [List.getD_eq_getElem _ _ hilt]
      exact List.getElem_mem hilt
    show sizesList (parent.takeElements (idxs.map (fun i => pindices.getD i 0))) = _
    rw [ih hsf hwf'.2 _ hbm, List.map_map]
    apply List.map_congr_left
    intro i hi
    exact (getD_map_lt (fun j => parent.elemSizes.getD j 0) pindices i 0 0
      (hb i hi)).symm

/-! ### Lemmas about `subset` -/

theorem sublist_flatMap {α β : Type} (f : α → List β) {l1 l2 : List α}
    (h : l1.Sublist l2) : (l1.flatMap f).Sublist (l2.flatMap f) := by
  induction h with
  | slnil => exact List.Sublist.refl _
  | cons a h ih => exact ih.trans (List.sublist_append_right (f a) _)
  | cons₂ a h ih => exact ih.append_left (f a)

theorem coversB_spec (s : Sample) (h : s.coversB = true) :
    ∀ p < s.npoints, ∃ e, e < s.nelems ∧ p ∈ s.getindexD e := by
  rw [Sample.coversB, List.all_eq_true] at h
  intro p hp
  have h2 := h p (List.mem_range.mpr hp)
  rw [List.any_eq_true] at h2
  obtain ⟨e, he, hmem⟩ := h2
  exact ⟨e, List.mem_range.mp he, by simpa using hmem⟩

theorem mem_subsetSel (s : Sample) (mask : List Bool) (e : Nat) (he : e < s.nelems)
    (hp : ∃ p ∈ s.getindexD e, mask.getD p false = true) : e ∈ s.subsetSel mask := by
  rw [Sample.subsetSel, List.mem_filter]
  refine ⟨List.mem_range.mpr he, ?_⟩
  rw [List.any_eq_true]
  obtain ⟨p, hpm, hpt⟩ := hp
  exact ⟨p, hpm, by simpa using hpt⟩

theorem subsetSel_lt (s : Sample) (mask : List Bool) :
    ∀ e ∈ s.subsetSel mask, e < s.nelems := by
  intro e he
  rw [Sample.subsetSel, List.mem_filter] at he
  exact List.mem_range.mp he.1

theorem subsetSel_pos (s : Sample) (mask : List Bool) (hwf : s.wfb = true) :
    ∀ e ∈ s.subsetSel mask, 0 < s.elemSizes.getD e 0 := by
  intro e he
  have hlt := subsetSel_lt s mask e he
  rw [Sample.subsetSel, List.mem_filter, List.any_eq_true] at he
  obtain ⟨_, p, hpm, _⟩ := he
  rw [← getindexD_length s hwf e hlt]
  refine List.length_pos.mpr ?_
  intro hnil
  rw [hnil] at hpm
  exact absurd hpm (List.not_mem_nil p)

theorem countTrue_eq_filter_range (m : List Bool) :
    countTrue m = ((List.range m.length).filter (fun p => m.getD p false)).length := by
  induction m with
  | nil => rfl
  | cons b m ih =>
    rw [show (b :: m).length = m.length + 1 from rfl, List.range_succ_eq_map,
      List.filter_cons, List.filter_map]
    have hcomp : ((fun p => (b :: m).getD p false) ∘ Nat.succ)
        = (fun p => m.getD p false) := by
      funext p
      rfl
    rw [hcomp]
    cases b with
    | true =>
      show countTrue (true :: m) = _
      rw [show countTrue (true :: m) = countTrue m + 1 by
        unfold countTrue
        rw [List.filter_cons]
        simp]
      simp [ih]
    | false =>
      show countTrue (false :: m) = _
      rw [show countTrue (false :: m) = countTrue m by
        unfold countTrue
        rw [List.filter_cons]
        simp]
      simp [ih]

theorem countTrue_le_subset_sum (s : Sample) (mask : List Bool)
    (hwf : s.wfb = true) (hcov : s.coversB = true) (hlen : mask.length = s.npoints) :
    countTrue mask ≤ ((s.subsetSel mask).map (fun e => s.elemSizes.getD e 0)).sum := by
  have htrues : countTrue mask
      = ((List.range s.npoints).filter (fun p => mask.getD p false)).length := by
    rw [countTrue_eq_filter_range, hlen]
  set trues := (List.range s.npoints).filter (fun p => mask.getD p false) with htr
  set F := (s.subsetSel mask).flatMap s.getindexD with hF
  have hsub : ∀ p ∈ trues, p ∈ F := by
    intro p hp
    have hp1 : p < s.npoints := List.mem_range.mp (List.mem_of_mem_filter hp)
    have hp2 : mask.getD p false = true := by
      rw [htr, List.mem_filter] at hp
      simpa using hp.2
    obtain ⟨e, he, hmem⟩ := coversB_spec s hcov p hp1
    rw [hF, List.mem_flatMap]
    exact ⟨e, mem_subsetSel s mask e he ⟨p, hmem, hp2⟩, hmem⟩
  have hnodup : trues.Nodup := (List.nodup_range s.npoints).filter _
  have hcard : trues.length = trues.toFinset.card :=
    (List.toFinset_card_of_nodup hnodup).symm
  have hsubF : trues.toFinset ⊆ F.toFinset := by
    intro x hx
    rw [List.mem_toFinset] at hx ⊢
    exact hsub x hx
  have hFlen : F.length
      = ((s.subsetSel mask).map (fun e => s.elemSizes.getD e 0)).sum := by
    rw [hF, List.length_flatMap]
    apply congrArg
    apply List.map_congr_left
    intro e he
    exact getindexD_length s hwf e (subsetSel_lt s mask e he)
  calc countTrue mask = trues.length := htrues
    _ = trues.toFinset.card := hcard
    _ ≤ F.toFinset.card := Finset.card_le_card hsubF
    _ ≤ F.length := List.toFinset_card_le F
    _ = _ := hFlen

/-! ### Lemmas about `sortDedup`, `idxOfNat` and the element-assignment loop -/

theorem sortDedup_nodup (l : List Nat) : (sortDedup l).Nodup :=
  List.nodup_dedup _

theorem mem_sortDedup (l : List Nat) (v : Nat) : v ∈ sortDedup l ↔ v ∈ l := by
  rw [sortDedup, List.mem_dedup]
  exact (List.perm_insertionSort _ l).mem_iff

theorem sortDedup_perm_dedup (l : List Nat) : (sortDedup l).Perm l.dedup :=
  (List.perm_insertionSort _ l).dedup

theorem idxOfNat_lt_length (l : List Nat) (v : Nat) (h : v ∈ l) :
    idxOfNat l v < l.length := by
  induction l with
  | nil => simp at h
  | cons a t ih =>
    show (if a = v then 0 else idxOfNat t v + 1) < t.length + 1
    by_cases hav : a = v
    · rw [if_pos hav]
      omega
    · rw [if_neg hav]
      have hvt : v ∈ t := by
        rcases List.mem_cons.mp h with h1 | h2
        · exact absurd h1.symm hav
        · exact h2
      have := ih hvt
      omega

theorem getD_idxOfNat (l : List Nat) (v : Nat) (h : v ∈ l) :
    l.getD (idxOfNat l v) 0 = v := by
  induction l with
  | nil => simp at h
  | cons a t ih =>
    show (a :: t).getD (if a = v then 0 else idxOfNat t v + 1) 0 = v
    by_cases hav : a = v
    · rw [if_pos hav]
      exact hav
    · rw [if_neg hav, List.getD_cons_succ]
      apply ih
      rcases List.mem_cons.mp h with h1 | h2
      · exact absurd h1.symm hav
      · exact h2

theorem idxOfNat_getD (l : List Nat) (hnd : l.Nodup) (i : Nat) (h : i < l.length) :
    idxOfNat l (l.getD i 0) = i := by
  induction l generalizing i with
  | nil => simp at h
  | cons a t ih =>
    cases i with
    | zero =>
      show (if a = (a :: t).getD 0 0 then 0 else _) = 0
      rw [List.getD_cons_zero, if_pos rfl]
    | succ j =>
      rw [List.getD_cons_succ]
      show (if a = t.getD j 0 then 0 else idxOfNat t (t.getD j 0) + 1) = j + 1
      have hj : j < t.length := by simpa using h
      have hne : a ≠ t.getD j 0 := by
        intro heq
        apply (List.nodup_cons.mp hnd).1
        rw [heq, List.getD_eq_getElem _ _ hj]
        exact List.getElem_mem hj
      rw [if_neg hne, ih (List.nodup_cons.mp hnd).2 j hj]

theorem getD_set (acc : List Nat) (q v p : Nat) :
    (acc.set q v).getD p 0 = if p = q ∧ p < acc.length then v else acc.getD p 0 := by
  by_cases h : p = q ∧ p < acc.length
  · obtain ⟨rfl, hlt⟩ := h
    rw [if_pos ⟨rfl, hlt⟩, List.getD_eq_getElem?_getD, List.getElem?_set_self hlt]
    rfl
  · rw [if_neg h]
    by_cases hpq : p = q
    · subst hpq
      have hge : acc.length ≤ p := by
        rcases Nat.lt_or_ge p acc.length with h1 | h2
        · exact absurd ⟨rfl, h1⟩ h
        · exact h2
      rw [List.set_eq_of_length_le hge]
    · rw [List.getD_eq_getElem?_getD, List.getD_eq_getElem?_getD,
        List.getElem?_set_ne (fun hh => hpq hh.symm)]

theorem foldl_set_length (positions : List Nat) (v : Nat) (acc : List Nat) :
    (positions.foldl (fun a q => a.set q v) acc).length = acc.length := by
  induction positions generalizing acc with
  | nil => rfl
  | cons q t ih => rw [List.foldl_cons, ih, List.length_set]

theorem foldl_set_getD (positions : List Nat) (v : Nat) (acc : List Nat) (p : Nat) :
    (positions.foldl (fun a q => a.set q v) acc).getD p 0
      = if p ∈ positions ∧ p < acc.length then v else acc.getD p 0 := by
  induction positions generalizing acc with
  | nil => simp
  | cons q t ih =>
    rw [List.foldl_cons, ih, List.length_set, getD_set]
    simp only [List.mem_cons]
    by_cases hpt : p ∈ t <;> by_cases hpq : p = q <;>
      by_cases hpl : p < acc.length <;> simp [hpt, hpq, hpl] <;>
      (intro _ h2; rw [if_pos h2])

theorem assign_fold_getD (s : Sample) (es : List Nat) (acc : List Nat) (p : Nat)
    (hp : p < acc.length) :
    ((es.foldl (fun a ielem =>
        (s.getindexD ielem).foldl (fun a2 q => a2.set q ielem) a) acc).getD p 0
          = acc.getD p 0
        ∧ ∀ e ∈ es, p ∉ s.getindexD e)
    ∨ (∃ e ∈ es, p ∈ s.getindexD e
        ∧ (es.foldl (fun a ielem =>
            (s.getindexD ielem).foldl (fun a2 q => a2.set q ielem) a) acc).getD p 0
          = e) := by
  induction es generalizing acc with
  | nil =>
    left
    exact ⟨rfl, by simp⟩
  | cons e t ih =>
    rw [List.foldl_cons]
    have hlen' : ((s.getindexD e).foldl (fun a2 q => a2.set q e) acc).length
        = acc.length := foldl_set_length _ _ _
    rcases ih ((s.getindexD e).foldl (fun a2 q => a2.set q e) acc) (by omega) with
      ⟨heq, hnone⟩ | ⟨e', he', hmem, hval⟩
    · rw [heq, foldl_set_getD]
      by_cases hmem : p ∈ s.getindexD e
      · right
        exact ⟨e, List.mem_cons_self e t, hmem, by rw [if_pos ⟨hmem, hp⟩]⟩
      · left
        refine ⟨by rw [if_neg (fun hh => hmem hh.1)], ?_⟩
        intro e2 he2
        rcases List.mem_cons.mp he2 with h1 | h2
        · rw [h1]
          exact hmem
        · exact hnone e2 h2
    · right
      exact ⟨e', List.mem_cons_of_mem e he', hmem, hval⟩

theorem foldl_assign_length (s : Sample) (es : List Nat) (acc : List Nat) :
    (es.foldl (fun a ielem =>
      (s.getindexD ielem).foldl (fun a2 q => a2.set q ielem) a) acc).length
        = acc.length := by
  induction es generalizing acc with
  | nil => rfl
  | cons e t ih => rw [List.foldl_cons, ih, foldl_set_length]

theorem assignIelems_length (npts : Nat) (s : Sample) :
    (assignIelems npts s).length = npts := by
  unfold assignIelems
  rw [foldl_assign_length, List.length_replicate]

theorem assignIelems_spec (npts : Nat) (s : Sample) (p : Nat) (hp : p < npts)
    (hcov : ∃ e, e < s.nelems ∧ p ∈ s.getindexD e) :
    (assignIelems npts s).getD p 0 < s.nelems
      ∧ p ∈ s.getindexD ((assignIelems npts s).getD p 0) := by
  unfold assignIelems
  rcases assign_fold_getD s (List.range s.nelems) (List.replicate npts 0) p
    (by simpa using hp) with ⟨_, hnone⟩ | ⟨e, he, hmem, hval⟩
  · obtain ⟨e, helt, hemem⟩ := hcov
    exact absurd hemem (hnone e (List.mem_range.mpr helt))
  · rw [hval]
    exact ⟨List.mem_range.mp he, hmem⟩

/-! ### Injectivity of the mixed-radix encoding `ravelMulti` -/

theorem ravel_foldl_init (l : List (Nat × Nat)) (init : Nat) :
    l.foldl (fun acc x => acc * x.2 + x.1) init
      = init * (l.map Prod.snd).prod + l.foldl (fun acc x => acc * x.2 + x.1) 0 := by
  induction l generalizing init with
  | nil => simp
  | cons x t ih =>
    rw [List.foldl_cons, List.foldl_cons, ih, ih (0 * x.2 + x.1)]
    rw [List.map_cons, List.prod_cons]
    ring

theorem ravel_lt_prod (l : List (Nat × Nat)) (hb : ∀ x ∈ l, x.1 < x.2) :
    ravelMulti l < (l.map Prod.snd).prod := by
  induction l with
  | nil =>
    show (0 : Nat) < 1
    omega
  | cons x t ih =>
    have hx := hb x (List.mem_cons_self x t)
    have ht := ih (fun y hy => hb y (List.mem_cons_of_mem _ hy))
    unfold ravelMulti at ht ⊢
    rw [List.foldl_cons, ravel_foldl_init]
    rw [List.map_cons, List.prod_cons]
    have hP : 0 < (t.map Prod.snd).prod := Nat.lt_of_le_of_lt (Nat.zero_le _) ht
    calc (0 * x.2 + x.1) * (t.map Prod.snd).prod
          + t.foldl (fun acc y => acc * y.2 + y.1) 0
        < (0 * x.2 + x.1) * (t.map Prod.snd).prod + (t.map Prod.snd).prod := by omega
      _ = (x.1 + 1) * (t.map Prod.snd).prod := by ring
      _ ≤ x.2 * (t.map Prod.snd).prod := Nat.mul_le_mul_right _ hx

theorem ravelMulti_inj (rad : List Nat) : ∀ (t1 t2 : List Nat),
    t1.length = rad.length → t2.length = rad.length →
    (∀ j, j < rad.length → t1.getD j 0 < rad.getD j 0) →
    (∀ j, j < rad.length → t2.getD j 0 < rad.getD j 0) →
    ravelMulti (t1.zip rad) = ravelMulti (t2.zip rad) → t1 = t2 := by
  induction rad with
  | nil =>
    intro t1 t2 h1 h2 _ _ _
    have e1 : t1 = [] := List.eq_nil_of_length_eq_zero (by simpa using h1)
    have e2 : t2 = [] := List.eq_nil_of_length_eq_zero (by simpa using h2)
    rw [e1, e2]
  | cons n rad ih =>
    intro t1 t2 h1 h2 hb1 hb2 heq
    cases t1 with
    | nil => simp at h1
    | cons a t1 =>
      cases t2 with
      | nil => simp at h2
      | cons b t2 =>
        have hlen1 : t1.length = rad.length := by simpa using h1
        have hlen2 : t2.length = rad.length := by simpa using h2
        have hsnd1 : ((t1.zip rad).map Prod.snd) = rad :=
          List.map_snd_zip t1 rad (by omega)
        have hsnd2 : ((t2.zip rad).map Prod.snd) = rad :=
          List.map_snd_zip t2 rad (by omega)
        have hr1 : ravelMulti (t1.zip rad) < rad.prod := by
          have := ravel_lt_prod (t1.zip rad) ?_
          · rwa [hsnd1] at this
          · intro x hx
            rw [List.mem_iff_getElem] at hx
            obtain ⟨j, hj, rfl⟩ := hx
            have hjr : j < rad.length := by
              rw [List.length_zip] at hj
              omega
            have hfst : (t1.zip rad)[j].1 = t1.getD j 0 := by
              rw [List.getElem_zip]
              exact (List.getD_eq_getElem _ _ (by omega)).symm
            have hsndj : (t1.zip rad)[j].2 = rad.getD j 0 := by
              rw [List.getElem_zip]
              exact (List.getD_eq_getElem _ _ hjr).symm
            rw [hfst, hsndj]
            exact hb1 (j + 1) (by simpa using hjr) |> fun hh => by
              rw [List.getD_cons_succ, List.getD_cons_succ] at hh
              exact hh
        have hr2 : ravelMulti (t2.zip rad) < rad.prod := by
          have := ravel_lt_prod (t2.zip rad) ?_
          · rwa [hsnd2] at this
          · intro x hx
            rw [List.mem_iff_getElem] at hx
            obtain ⟨j, hj, rfl⟩ := hx
            have hjr : j < rad.length := by
              rw [List.length_zip] at hj
              omega
            have hfst : (t2.zip rad)[j].1 = t2.getD j 0 := by
              rw [List.getElem_zip]
              exact (List.getD_eq_getElem _ _ (by omega)).symm
            have hsndj : (t2.zip rad)[j].2 = rad.getD j 0 := by
              rw [List.getElem_zip]
              exact (List.getD_eq_getElem _ _ hjr).symm
            rw [hfst, hsndj]
            exact hb2 (j + 1) (by simpa using hjr) |> fun hh => by
              rw [List.getD_cons_succ, List.getD_cons_succ] at hh
              exact hh
        simp only [List.zip_cons_cons] at heq
        unfold ravelMulti at heq
        rw [List.foldl_cons, List.foldl_cons, ravel_foldl_init,
          ravel_foldl_init (t2.zip rad) (0 * (b, n).2 + (b, n).1),
          hsnd1, hsnd2] at heq
        simp only [Nat.zero_mul, Nat.zero_add] at heq
        unfold ravelMulti at hr1 hr2
        have hP : 0 < rad.prod := Nat.lt_of_le_of_lt (Nat.zero_le _) hr1
        have hab : a = b := by
          rcases Nat.lt_trichotomy a b with hlt | heqab | hgt
          · exfalso
            have hstep : a * rad.prod + (t1.zip rad).foldl
                (fun acc x => acc * x.2 + x.1) 0 < b * rad.prod := by
              calc a * rad.prod + (t1.zip rad).foldl
                    (fun acc x => acc * x.2 + x.1) 0
                  < a * rad.prod + rad.prod := by omega
                _ = (a + 1) * rad.prod := by ring
                _ ≤ b * rad.prod := Nat.mul_le_mul_right _ hlt
            omega
          · exact heqab
          · exfalso
            have hstep : b * rad.prod + (t2.zip rad).foldl
                (fun acc x => acc * x.2 + x.1) 0 < a * rad.prod := by
              calc b * rad.prod + (t2.zip rad).foldl
                    (fun acc x => acc * x.2 + x.1) 0
                  < b * rad.prod + rad.prod := by omega
                _ = (b + 1) * rad.prod := by ring
                _ ≤ a * rad.prod := Nat.mul_le_mul_right _ hgt
            omega
        subst hab
        have hrest : (t1.zip rad).foldl (fun acc x => acc * x.2 + x.1) 0
            = (t2.zip rad).foldl (fun acc x => acc * x.2 + x.1) 0 := by
          omega
        have := ih t1 t2 hlen1 hlen2
          (fun j hj => by
            have := hb1 (j + 1) (by simpa using hj)
            rwa [List.getD_cons_succ, List.getD_cons_succ] at this)
          (fun j hj => by
            have := hb2 (j + 1) (by simpa using hj)
            rwa [List.getD_cons_succ, List.getD_cons_succ] at this)
          hrest
        rw [this]

/-! ### Structural lemmas about the `_Zip.__init__` computation -/

theorem zipFlatList_length (L : List Sample) (npts : Nat) :
    (zipFlatList L npts).length = npts := by
  simp [zipFlatList]

theorem zipFlatList_getD (L : List Sample) (npts p : Nat) (hp : p < npts) :
    (zipFlatList L npts).getD p 0 = zipFlat L npts p := by
  unfold zipFlatList
  rw [getD_map_lt _ _ _ _ 0 (by simpa using hp)]
  congr 1
  rw [List.getD_eq_getElem _ _ (by simpa using hp), List.getElem_range]

theorem zipFlat_mem_uniq (L : List Sample) (npts p : Nat) (hp : p < npts) :
    zipFlat L npts p ∈ zipUniq L npts := by
  rw [zipUniq, mem_sortDedup]
  unfold zipFlatList
  exact List.mem_map.mpr ⟨p, List.mem_range.mpr hp, rfl⟩

theorem zipInverse_getD (L : List Sample) (npts p : Nat) (hp : p < npts) :
    (zipInverse L npts).getD p 0
      = idxOfNat (zipUniq L npts) (zipFlat L npts p) := by
  unfold zipInverse
  rw [getD_map_lt _ _ _ _ 0 (by rw [zipFlatList_length]; exact hp)]
  rw [zipFlatList_getD L npts p hp]

theorem zipInverse_lt (L : List Sample) (npts p : Nat) (hp : p < npts) :
    (zipInverse L npts).getD p 0 < (zipUniq L npts).length := by
  rw [zipInverse_getD L npts p hp]
  exact idxOfNat_lt_length _ _ (zipFlat_mem_uniq L npts p hp)

theorem zipInverse_eq_iff (L : List Sample) (npts p k : Nat) (hp : p < npts)
    (hk : k < (zipUniq L npts).length) :
    (zipInverse L npts).getD p 0 = k
      ↔ zipFlat L npts p = (zipUniq L npts).getD k 0 := by
  rw [zipInverse_getD L npts p hp]
  constructor
  · intro h
    rw [← h]
    exact (getD_idxOfNat _ _ (zipFlat_mem_uniq L npts p hp)).symm
  · intro h
    rw [h]
    exact idxOfNat_getD _ (sortDedup_nodup _) k hk

theorem mem_zipGroup (L : List Sample) (npts k p : Nat) :
    p ∈ zipGroup L npts k
      ↔ p < npts ∧ (zipInverse L npts).getD p 0 = k := by
  unfold zipGroup
  rw [List.mem_filter, List.mem_range]
  constructor
  · intro ⟨h1, h2⟩
    exact ⟨h1, by simpa using h2⟩
  · intro ⟨h1, h2⟩
    exact ⟨h1, by simpa using h2⟩

theorem zipSizes_length (L : List Sample) (npts : Nat) :
    (zipSizes L npts).length = (zipUniq L npts).length := by
  simp [zipSizes]

theorem zipGroup_length (L : List Sample) (npts k : Nat)
    (hk : k < (zipUniq L npts).length) :
    (zipGroup L npts k).length = (zipSizes L npts).getD k 0 := by
  have hz : (zipSizes L npts).getD k 0
      = (zipFlatList L npts).count ((zipUniq L npts).getD k 0) := by
    unfold zipSizes
    exact getD_map_lt _ _ _ _ 0 hk
  rw [hz]
  unfold zipFlatList zipGroup
  rw [List.count_eq_countP, List.countP_map, ← List.countP_eq_length_filter]
  apply List.countP_congr
  intro p hp
  have hp' := List.mem_range.mp hp
  show ((zipInverse L npts).getD p 0 == k) = true
    ↔ ((fun x => x == (zipUniq L npts).getD k 0) ∘ zipFlat L npts) p = true
  rw [Function.comp_apply, beq_iff_eq, beq_iff_eq]
  exact zipInverse_eq_iff L npts p k hp' hk

theorem zipGroup_nodup (L : List Sample) (npts k : Nat) :
    (zipGroup L npts k).Nodup :=
  (List.nodup_range npts).filter _

theorem zipIndices_nodup (L : List Sample) (npts : Nat) :
    (zipIndices L npts).Nodup := by
  unfold zipIndices
  rw [List.flatMap_def, List.nodup_flatten]
  constructor
  · intro l hl
    rw [List.mem_map] at hl
    obtain ⟨k, _, rfl⟩ := hl
    exact zipGroup_nodup L npts k
  · rw [List.pairwise_map]
    apply (List.pairwise_lt_range _).imp
    intro k1 k2 hlt p hp1 hp2
    rw [mem_zipGroup] at hp1 hp2
    omega

theorem mem_zipIndices (L : List Sample) (npts p : Nat) :
    p ∈ zipIndices L npts ↔ p < npts := by
  unfold zipIndices
  rw [List.mem_flatMap]
  constructor
  · intro ⟨k, _, hp⟩
    exact ((mem_zipGroup L npts k p).mp hp).1
  · intro hp
    refine ⟨(zipInverse L npts).getD p 0, ?_, ?_⟩
    · exact List.mem_range.mpr (zipInverse_lt L npts p hp)
    · exact (mem_zipGroup L npts _ p).mpr ⟨hp, rfl⟩

theorem zipIndices_perm_range (L : List Sample) (npts : Nat) :
    (zipIndices L npts).Perm (List.range npts) := by
  rw [List.perm_ext_iff_of_nodup (zipIndices_nodup L npts) (List.nodup_range npts)]
  intro p
  rw [mem_zipIndices, List.mem_range]

theorem zipIndices_length (L : List Sample) (npts : Nat) :
    (zipIndices L npts).length = npts := by
  rw [(zipIndices_perm_range L npts).length_eq, List.length_range]

theorem zipSizes_map_group_length (L : List Sample) (npts : Nat) :
    ((List.range (zipUniq L npts).length).map (zipGroup L npts)).map
      List.length = zipSizes L npts := by
  rw [List.map_map]
  have h1 : (List.range (zipUniq L npts).length).map (List.length ∘ zipGroup L npts)
      = (List.range (zipUniq L npts).length).map
        (fun k => (zipSizes L npts).getD k 0) := by
    apply List.map_congr_left
    intro k hk
    exact zipGroup_length L npts k (List.mem_range.mp hk)
  rw [h1, ← zipSizes_length L npts, map_getD_range]

theorem zipSizes_sum (L : List Sample) (npts : Nat) :
    (zipSizes L npts).sum = npts := by
  rw [← zipSizes_map_group_length L npts]
  have h1 : (((List.range (zipUniq L npts).length).map (zipGroup L npts)).map
      List.length).sum = (((List.range (zipUniq L npts).length).map
        (zipGroup L npts)).flatten).length := by
    rw [List.length_flatten]
  rw [h1, ← List.flatMap_def]
  exact zipIndices_length L npts

theorem zipped_getindexE_group (L : List Sample) (npts : Nat)
    (spaces : List String) (ndims k : Nat) (hk : k < (zipUniq L npts).length) :
    (Sample.zipped spaces ndims (zipOffsets L npts) (zipSizes L npts)
      (zipIndices L npts) npts).getindexE k = .ok (zipGroup L npts k) := by
  have hklen : k < (zipSizes L npts).length := by
    rw [zipSizes_length]
    exact hk
  have hofflen : (zipOffsets L npts).length = (zipSizes L npts).length + 1 := by
    rw [zipOffsets, cumsum_length]
  have htake : ((zipOffsets L npts).drop k).take 2
      = [(zipOffsets L npts).getD k 0, (zipOffsets L npts).getD (k + 1) 0] := by
    have := drop_take_two (zipOffsets L npts) k (by omega)
    simpa using this
  have hgk : (zipOffsets L npts).getD k 0 = ((zipSizes L npts).take k).sum := by
    rw [zipOffsets, cumsum_getD _ _ (Nat.le_of_lt hklen)]
  have hgk1 : (zipOffsets L npts).getD (k + 1) 0
      = ((zipSizes L npts).take k).sum + (zipSizes L npts).getD k 0 := by
    rw [zipOffsets, cumsum_getD _ _ (by omega), List.take_succ, List.sum_append,
      List.getElem?_eq_getElem hklen, List.getD_eq_getElem _ _ hklen]
    simp
  show (match ((zipOffsets L npts).drop k).take 2 with
    | [a, b] => Except.ok (((zipIndices L npts).drop a).take (b - a))
    | [a] => Except.ok ((zipIndices L npts).take a)
    | _ => Except.error PyError.typeError) = _
  rw [htake]
  have hsub : (zipOffsets L npts).getD (k + 1) 0 - (zipOffsets L npts).getD k 0
      = (zipSizes L npts).getD k 0 := by
    omega
  show Except.ok (((zipIndices L npts).drop ((zipOffsets L npts).getD k 0)).take
    ((zipOffsets L npts).getD (k + 1) 0 - (zipOffsets L npts).getD k 0))
      = Except.ok (zipGroup L npts k)
  rw [hsub]
  congr 1
  have hgetD : ((List.range (zipUniq L npts).length).map (zipGroup L npts)).getD k []
      = zipGroup L npts k := by
    rw [getD_map_lt (zipGroup L npts) (List.range _) k [] 0 (by simpa using hk)]
    congr 1
    rw [List.getD_eq_getElem _ _ (by simpa using hk), List.getElem_range]
  have hflat := flatten_drop_take
    ((List.range (zipUniq L npts).length).map (zipGroup L npts)) k
    (by simpa using hk)
  rw [zipSizes_map_group_length L npts, ← List.flatMap_def, hgetD] at hflat
  exact hflat

theorem dedup_length_lt_iff {α : Type} [DecidableEq α] (l : List α) :
    l.dedup.length < l.length ↔ ¬ l.Nodup := by
  constructor
  · intro h hnd
    rw [List.dedup_eq_self.mpr hnd] at h
    omega
  · intro hnd
    have hle := (List.dedup_sublist l).length_le
    rcases Nat.lt_or_ge l.dedup.length l.length with h | h
    · exact h
    · exfalso
      apply hnd
      rw [← List.dedup_eq_self]
      exact (List.dedup_sublist l).eq_of_length (by omega)

theorem zipE_error_of_npoints (s0 : Sample) (rest : List Sample)
    (h : ¬ ∀ s ∈ s0 :: rest, s.npoints = s0.npoints) :
    zipE (s0 :: rest) = .error .valueError := by
  show (if ¬ (s0 :: rest).all (fun s => s.npoints == s0.npoints) then
      Except.error PyError.valueError
    else if (((s0 :: rest).map Sample.spaces).flatten).dedup.length
        < (((s0 :: rest).map Sample.spaces).flatten).length then
      Except.error PyError.valueError
    else Except.ok (Sample.zipped (((s0 :: rest).map Sample.spaces).flatten)
      s0.ndims (zipOffsets (s0 :: rest) s0.npoints)
      (zipSizes (s0 :: rest) s0.npoints)
      (zipIndices (s0 :: rest) s0.npoints) s0.npoints)) = _
  rw [if_pos]
  intro hall
  rw [List.all_eq_true] at hall
  exact h (fun s hs => beq_iff_eq.mp (hall s hs))

theorem zipE_error_of_spaces (s0 : Sample) (rest : List Sample)
    (h1 : ∀ s ∈ s0 :: rest, s.npoints = s0.npoints)
    (h2 : ¬ (((s0 :: rest).map Sample.spaces).flatten).Nodup) :
    zipE (s0 :: rest) = .error .valueError := by
  show (if ¬ (s0 :: rest).all (fun s => s.npoints == s0.npoints) then
      Except.error PyError.valueError
    else if (((s0 :: rest).map Sample.spaces).flatten).dedup.length
        < (((s0 :: rest).map Sample.spaces).flatten).length then
      Except.error PyError.valueError
    else Except.ok (Sample.zipped (((s0 :: rest).map Sample.spaces).flatten)
      s0.ndims (zipOffsets (s0 :: rest) s0.npoints)
      (zipSizes (s0 :: rest) s0.npoints)
      (zipIndices (s0 :: rest) s0.npoints) s0.npoints)) = _
  rw [if_neg, if_pos ((dedup_length_lt_iff _).mpr h2)]
  rw [not_not, List.all_eq_true]
  intro s hs
  exact beq_iff_eq.mpr (h1 s hs)

theorem zipE_ok_of (s0 : Sample) (rest : List Sample)
    (h1 : ∀ s ∈ s0 :: rest, s.npoints = s0.npoints)
    (h2 : (((s0 :: rest).map Sample.spaces).flatten).Nodup) :
    zipE (s0 :: rest) = .ok (.zipped (((s0 :: rest).map Sample.spaces).flatten)
      s0.ndims (zipOffsets (s0 :: rest) s0.npoints)
      (zipSizes (s0 :: rest) s0.npoints)
      (zipIndices (s0 :: rest) s0.npoints) s0.npoints) := by
  show (if ¬ (s0 :: rest).all (fun s => s.npoints == s0.npoints) then
      Except.error PyError.valueError
    else if (((s0 :: rest).map Sample.spaces).flatten).dedup.length
        < (((s0 :: rest).map Sample.spaces).flatten).length then
      Except.error PyError.valueError
    else Except.ok (Sample.zipped (((s0 :: rest).map Sample.spaces).flatten)
      s0.ndims (zipOffsets (s0 :: rest) s0.npoints)
      (zipSizes (s0 :: rest) s0.npoints)
      (zipIndices (s0 :: rest) s0.npoints) s0.npoints)) = _
  have hc1 : ¬ ¬ ((s0 :: rest).all (fun s => s.npoints == s0.npoints) = true) := by
    rw [not_not, List.all_eq_true]
    intro s hs
    exact beq_iff_eq.mpr (h1 s hs)
  have hc2 : ¬ ((((s0 :: rest).map Sample.spaces).flatten).dedup.length
      < (((s0 :: rest).map Sample.spaces).flatten).length) := by
    rw [List.dedup_eq_self.mpr h2]
    omega
  rw [if_neg hc1, if_neg hc2]

theorem zipE_ok_elim (s0 : Sample) (rest : List Sample) (z : Sample)
    (hz : zipE (s0 :: rest) = .ok z) :
    (∀ s ∈ s0 :: rest, s.npoints = s0.npoints)
    ∧ (((s0 :: rest).map Sample.spaces).flatten).Nodup
    ∧ z = .zipped (((s0 :: rest).map Sample.spaces).flatten) s0.ndims
        (zipOffsets (s0 :: rest) s0.npoints) (zipSizes (s0 :: rest) s0.npoints)
        (zipIndices (s0 :: rest) s0.npoints) s0.npoints := by
  by_cases h1 : ∀ s ∈ s0 :: rest, s.npoints = s0.npoints
  · by_cases h2 : (((s0 :: rest).map Sample.spaces).flatten).Nodup
    · refine ⟨h1, h2, ?_⟩
      rw [zipE_ok_of s0 rest h1 h2] at hz
      exact (Except.ok.inj hz).symm
    · rw [zipE_error_of_spaces s0 rest h1 h2] at hz
      exact absurd hz (by simp)
  · rw [zipE_error_of_npoints s0 rest h1] at hz
    exact absurd hz (by simp)

theorem toFinset_map_list {α β : Type} [DecidableEq α] [DecidableEq β]
    (l : List α) (f : α → β) : (l.map f).toFinset = l.toFinset.image f := by
  ext x
  simp

theorem zipTuple_length (L : List Sample) (npts p : Nat) :
    (zipTuple L npts p).length = L.length := by
  simp [zipTuple]

theorem zipTuple_getD (L : List Sample) (npts p j : Nat) (hj : j < L.length) :
    (zipTuple L npts p).getD j 0
      = (assignIelems npts (L.getD j (.empty [] 0))).getD p 0 := by
  unfold zipTuple
  rw [getD_map_lt _ _ _ _ (.empty [] 0) hj]

theorem zipTuple_bounds (L : List Sample) (npts p : Nat) (hp : p < npts)
    (hnp : ∀ s ∈ L, s.npoints = npts) (hcov : ∀ s ∈ L, s.coversB = true)
    (j : Nat) (hj : j < L.length) :
    (zipTuple L npts p).getD j 0 < (L.getD j (.empty [] 0)).nelems
      ∧ p ∈ (L.getD j (.empty [] 0)).getindexD ((zipTuple L npts p).getD j 0) := by
  rw [zipTuple_getD L npts p j hj]
  have hmem : L.getD j (.empty [] 0) ∈ L := by
    rw [List.getD_eq_getElem _ _ hj]
    exact List.getElem_mem hj
  have hp' : p < (L.getD j (.empty [] 0)).npoints := by
    rw [hnp _ hmem]
    exact hp
  exact assignIelems_spec npts _ p hp
    (coversB_spec _ (hcov _ hmem) p hp')

theorem zipTuple_inj (L : List Sample) (npts : Nat)
    (hnp : ∀ s ∈ L, s.npoints = npts) (hcov : ∀ s ∈ L, s.coversB = true)
    (p q : Nat) (hp : p < npts) (hq : q < npts)
    (heq : zipFlat L npts p = zipFlat L npts q) :
    zipTuple L npts p = zipTuple L npts q := by
  have hradlen : (L.map Sample.nelems).length = L.length := by simp
  have hrad : ∀ j, j < L.length →
      (L.map Sample.nelems).getD j 0 = (L.getD j (.empty [] 0)).nelems := by
    intro j hj
    exact getD_map_lt Sample.nelems L j 0 (.empty [] 0) hj
  apply ravelMulti_inj (L.map Sample.nelems) _ _
    (by rw [zipTuple_length, hradlen])
    (by rw [zipTuple_length, hradlen])
    (by
      intro j hj
      rw [hradlen] at hj
      rw [hrad j hj]
      exact (zipTuple_bounds L npts p hp hnp hcov j hj).1)
    (by
      intro j hj
      rw [hradlen] at hj
      rw [hrad j hj]
      exact (zipTuple_bounds L npts q hq hnp hcov j hj).1)
    heq

theorem zipUniq_length_eq_tuples (L : List Sample) (npts : Nat)
    (hnp : ∀ s ∈ L, s.npoints = npts) (hcov : ∀ s ∈ L, s.coversB = true) :
    (zipUniq L npts).length
      = ((List.range npts).map (zipTuple L npts)).dedup.length := by
  have h1 : (zipUniq L npts).length = (zipFlatList L npts).dedup.length :=
    (sortDedup_perm_dedup _).length_eq
  have h2 : zipFlatList L npts = ((List.range npts).map (zipTuple L npts)).map
      (fun t => ravelMulti (t.zip (L.map Sample.nelems))) := by
    unfold zipFlatList zipFlat
    rw [List.map_map]
    rfl
  rw [h1, h2, ← List.card_toFinset, ← List.card_toFinset, toFinset_map_list]
  apply Finset.card_image_of_injOn
  intro t1 ht1 t2 ht2 heq
  rw [Finset.mem_coe, List.mem_toFinset, List.mem_map] at ht1 ht2
  obtain ⟨p, hp, rfl⟩ := ht1
  obtain ⟨q, hq, rfl⟩ := ht2
  exact zipTuple_inj L npts hnp hcov p q (List.mem_range.mp hp)
    (List.mem_range.mp hq) heq

theorem zipE_wfb (L : List Sample) (npts : Nat) (sp : List String) (nd : Nat) :
    (Sample.zipped sp nd (zipOffsets L npts) (zipSizes L npts)
      (zipIndices L npts) npts).wfb = true := by
  show (((zipOffsets L npts == cumsum (zipSizes L npts))
    && (zipIndices L npts).length == npts)
    && (npts == (zipSizes L npts).sum)) = true
  rw [Bool.and_eq_true, Bool.and_eq_true]
  refine ⟨⟨?_, ?_⟩, ?_⟩
  · rw [beq_iff_eq]
    rfl
  · rw [beq_iff_eq]
    exact zipIndices_length L npts
  · rw [beq_iff_eq]
    exact (zipSizes_sum L npts).symm

/-! ### The claims -/

/-- C7: `a + b` raises a `ValueError`-kind error if `a.spaces ≠ b.spaces`;
with equal spaces it returns the other operand unchanged (the identical
sample value) when one operand has zero points, and a Sum (`_Add`)
otherwise. -/
theorem claim_C7_add_validation (a b : Sample) :
    (a.spaces ≠ b.spaces → a.addE b = .error .valueError)
    ∧ (a.spaces = b.spaces → b.npoints = 0 → a.addE b = .ok a)
    ∧ (a.spaces = b.spaces → a.npoints = 0 → b.npoints ≠ 0 → a.addE b = .ok b)
    ∧ (a.spaces = b.spaces → a.npoints ≠ 0 → b.npoints ≠ 0 →
        a.addE b = .ok (.add a b))
    ∧ (a.spaces = b.spaces → (a.npoints = 0 ∨ b.npoints = 0) →
        (a.addE b = .ok a ∧ b.npoints = 0) ∨ (a.addE b = .ok b ∧ a.npoints = 0)) := by
  refine ⟨?_, ?_, ?_, ?_, ?_⟩
  · intro hsp
    unfold Sample.addE
    rw [if_pos hsp]
  · intro hsp h2
    unfold Sample.addE Sample.addS
    rw [if_neg (by rw [not_not]; exact hsp), if_pos h2]
  · intro hsp h1 h2
    unfold Sample.addE Sample.addS
    rw [if_neg (by rw [not_not]; exact hsp), if_neg h2, if_pos h1]
  · intro hsp h1 h2
    unfold Sample.addE Sample.addS
    rw [if_neg (by rw [not_not]; exact hsp), if_neg h2, if_neg h1]
  · intro hsp hor
    by_cases h2 : b.npoints = 0
    · left
      refine ⟨?_, h2⟩
      unfold Sample.addE Sample.addS
      rw [if_neg (by rw [not_not]; exact hsp), if_pos h2]
    · right
      have h1 : a.npoints = 0 := by
        rcases hor with h | h
        · exact h
        · exact absurd h h2
      refine ⟨?_, h1⟩
      unfold Sample.addE Sample.addS
      rw [if_neg (by rw [not_not]; exact hsp), if_neg h2, if_pos h1]

/-- C7 witness: adding a zero-point sample to a one-point sample over the
same space returns the first operand unchanged. -/
theorem claim_C7_witness :
    oneElemOnePoint.addE oneElemZeroPoints = .ok oneElemOnePoint :=
  (claim_C7_add_validation oneElemOnePoint oneElemZeroPoints).2.1
    (by decide) (by decide)

/-- C2 counterexample: for `a` a one-element one-point leaf and `b` a
one-element zero-point leaf over the same space, `a + b` returns `a`
unchanged, so the result has `1` element rather than
`a.nelems + b.nelems = 2`. -/
theorem claim_C2_counterexample :
    oneElemOnePoint.spaces = oneElemZeroPoints.spaces
    ∧ oneElemOnePoint.addE oneElemZeroPoints = .ok oneElemOnePoint
    ∧ oneElemOnePoint.nelems = 1
    ∧ oneElemZeroPoints.nelems = 1
    ∧ ¬ ((oneElemOnePoint.addE oneElemZeroPoints).map Sample.nelems
        = .ok (oneElemOnePoint.nelems + oneElemZeroPoints.nelems)) := by
  decide

/-- C2 amended: for samples with equal spaces, `a + b` always succeeds and
its point count is `a.npoints + b.npoints`; its element count is
`a.nelems + b.nelems` provided every operand with zero points also has zero
elements (otherwise the zero-point operand is dropped, elements included). -/
theorem claim_C2_amended (a b : Sample) (hsp : a.spaces = b.spaces) :
    ∃ r, a.addE b = .ok r
      ∧ r.npoints = a.npoints + b.npoints
      ∧ ((a.npoints = 0 → a.nelems = 0) → (b.npoints = 0 → b.nelems = 0) →
          r.nelems = a.nelems + b.nelems) := by
  refine ⟨a.addS b, ?_, ?_, ?_⟩
  · unfold Sample.addE
    rw [if_neg (by rw [not_not]; exact hsp)]
  · exact addS_npoints a b
  · intro ha hb
    unfold Sample.addS
    by_cases h2 : b.npoints = 0
    · rw [if_pos h2, hb h2]
      omega
    · rw [if_neg h2]
      by_cases h1 : a.npoints = 0
      · rw [if_pos h1, ha h1]
        omega
      · rw [if_neg h1]
        rfl

/-- C2 witness: the amended statement at two ordinary one-element leaves. -/
theorem claim_C2_witness :
    ∃ r, oneElemOnePoint.addE sumTwoLeaves = .ok r
      ∧ r.npoints = oneElemOnePoint.npoints + sumTwoLeaves.npoints
      ∧ ((oneElemOnePoint.npoints = 0 → oneElemOnePoint.nelems = 0) →
          (sumTwoLeaves.npoints = 0 → sumTwoLeaves.nelems = 0) →
          r.nelems = oneElemOnePoint.nelems + sumTwoLeaves.nelems) :=
  claim_C2_amended oneElemOnePoint sumTwoLeaves (by decide)

/-- C3 (code bug): the zipped variant's `getindex` has no bounds check.  On
the zipped sample of the scenario (3 merged elements), `getindex(3)` — one
past the last element — silently returns the entire point index array
instead of raising an index error, and `getindex(4)` raises a `TypeError`
(from `slice()` with no arguments) rather than an index error.  In-range
calls behave normally.  Every other variant checks its bounds. -/
theorem claim_C3_zip_getindex_no_bounds_check :
    zipXY.nelems = 3
    ∧ zipXY.getindexE 2 = .ok [2]
    ∧ zipXY.getindexE 3 = .ok [0, 1, 2]
    ∧ zipXY.getindexE 4 = .error .typeError := by
  decide

/-- C9 counterexample: `_Empty.basis` ignores the interpolation argument,
so an empty sample's `basis("cubic")` returns an empty basis without
raising the `ValueError` that the claim requires. -/
theorem claim_C9_counterexample :
    (Sample.empty ["X"] 1).basisE "cubic" = .ok (.zeros 0)
    ∧ ¬ ("cubic" = "none" ∨ "cubic" = "nearest") := by
  decide

/-- C9 amended: the transform-chains variants (`_DefaultIndex`,
`_CustomIndex`) raise `ValueError` exactly for interpolation strings other
than `"none"`/`"nearest"`; `_Empty.basis` ignores the argument and never
raises; `_Mul.basis` delegates to its factors; the remaining variants
(`_Add`, `_Zip`, `_TakeElements`) raise `NotImplementedError` regardless of
the argument. -/
theorem claim_C9_amended (interpolation : String) :
    (∀ space fromdims sizes,
        (Sample.defaultIndex space fromdims sizes).basisE interpolation
            = .error .valueError
          ↔ ¬ (interpolation = "none" ∨ interpolation = "nearest"))
    ∧ (∀ space fromdims sizes index,
        (Sample.customIndex space fromdims sizes index).basisE interpolation
            = .error .valueError
          ↔ ¬ (interpolation = "none" ∨ interpolation = "nearest"))
    ∧ (∀ spaces ndims,
        (Sample.empty spaces ndims).basisE interpolation = .ok (.zeros 0))
    ∧ (∀ s1 s2 : Sample, (Sample.mul s1 s2).basisE interpolation
        = (s1.basisE interpolation).bind (fun b1 =>
            (s2.basisE interpolation).bind (fun b2 => pure (.mulBasis b1 b2))))
    ∧ (∀ s1 s2 : Sample, (Sample.add s1 s2).basisE interpolation
        = .error .notImplementedError)
    ∧ (∀ spaces ndims offsets sizes indices npoints,
        (Sample.zipped spaces ndims offsets sizes indices npoints).basisE
          interpolation = .error .notImplementedError)
    ∧ (∀ (parent : Sample) indices,
        (Sample.takeElems parent indices).basisE interpolation
          = .error .notImplementedError) := by
  refine ⟨?_, ?_, fun _ _ => rfl, fun _ _ => rfl, fun _ _ => rfl,
    fun _ _ _ _ _ _ => rfl, fun _ _ => rfl⟩
  · intro space fromdims sizes
    unfold Sample.basisE
    by_cases h : interpolation = "none" ∨ interpolation = "nearest"
    · rw [if_pos h]
      simp [h]
    · rw [if_neg h]
      simp [h]
  · intro space fromdims sizes index
    unfold Sample.basisE
    by_cases h : interpolation = "none" ∨ interpolation = "nearest"
    · rw [if_pos h]
      simp [h]
    · rw [if_neg h]
      simp [h]

/-- C9 witness: a transform-chains leaf rejects the interpolation string
`"cubic"` with a `ValueError`-kind error. -/
theorem claim_C9_witness :
    (Sample.defaultIndex "X" 1 [3]).basisE "cubic" = .error .valueError :=
  (((claim_C9_amended "cubic").1) "X" 1 [3]).mpr (by decide)

/-- C10: a zipped sample's spaces are the concatenation of all constituent
spaces, but its `ndims` is that of the first constituent alone. -/
theorem claim_C10_zip_spaces_ndims (s0 : Sample) (rest : List Sample)
    (z : Sample) (hz : zipE (s0 :: rest) = .ok z) :
    z.spaces = ((s0 :: rest).map Sample.spaces).flatten ∧ z.ndims = s0.ndims := by
  obtain ⟨_, _, rfl⟩ := zipE_ok_elim s0 rest z hz
  exact ⟨rfl, rfl⟩

/-- C10 witness: the scenario zip has spaces `["X", "Y"]` but the first
constituent's `ndims`. -/
theorem claim_C10_witness :
    zipXY.spaces = (([sampleX, sampleY]).map Sample.spaces).flatten
    ∧ zipXY.ndims = sampleX.ndims :=
  claim_C10_zip_spaces_ndims sampleX [sampleY] zipXY (by decide)

/-- C6: `zip` raises `ValueError` when the point counts differ or the
combined space names are not pairwise distinct; otherwise it succeeds and
the zipped sample's point count is the common input point count. -/
theorem claim_C6_zip_validation (s0 : Sample) (rest : List Sample) :
    ((∃ s ∈ s0 :: rest, s.npoints ≠ s0.npoints) →
        zipE (s0 :: rest) = .error .valueError)
    ∧ ((∀ s ∈ s0 :: rest, s.npoints = s0.npoints) →
        ¬ (((s0 :: rest).map Sample.spaces).flatten).Nodup →
        zipE (s0 :: rest) = .error .valueError)
    ∧ ((∀ s ∈ s0 :: rest, s.npoints = s0.npoints) →
        (((s0 :: rest).map Sample.spaces).flatten).Nodup →
        ∃ z, zipE (s0 :: rest) = .ok z ∧ z.npoints = s0.npoints
          ∧ ∀ s ∈ s0 :: rest, z.npoints = s.npoints) := by
  refine ⟨?_, ?_, ?_⟩
  · intro ⟨s, hs, hne⟩
    apply zipE_error_of_npoints
    intro hall
    exact hne (hall s hs)
  · exact zipE_error_of_spaces s0 rest
  · intro h1 h2
    refine ⟨_, zipE_ok_of s0 rest h1 h2, rfl, ?_⟩
    intro s hs
    show s0.npoints = s.npoints
    exact (h1 s hs).symm

/-- C6 witness: zipping the scenario samples succeeds with the common point
count, while zipping samples with different point counts raises
`ValueError`. -/
theorem claim_C6_witness :
    zipE [sampleX, sampleY, oneElemOnePoint] = .error .valueError :=
  (claim_C6_zip_validation sampleX [sampleY, oneElemOnePoint]).1
    ⟨oneElemOnePoint, by decide, by decide⟩

theorem mul_cond_iff (a b : Sample) :
    (a.spaces.any (fun sp => b.spaces.contains sp)) = true
      ↔ ¬ List.Disjoint a.spaces b.spaces := by
  rw [List.any_eq_true]
  constructor
  · intro ⟨x, hx1, hx2⟩ hdisj
    exact hdisj hx1 (by simpa using hx2)
  · intro h
    rw [List.Disjoint] at h
    push_neg at h
    obtain ⟨x, hx1, hx2⟩ := h
    exact ⟨x, hx1, by simpa using hx2⟩

/-- C4: `a * b` raises a `ValueError`-kind error when the spaces are not
disjoint; otherwise the product has `a.nelems * b.nelems` elements, a
product element index decomposes via `divmod(ielem, b.nelems)`, and the
global point index combining factor point indices `i` and `j` is
`i * b.npoints + j`. -/
theorem claim_C4_mul (a b : Sample) :
    (¬ List.Disjoint a.spaces b.spaces → a.mulE b = .error .valueError)
    ∧ (List.Disjoint a.spaces b.spaces → a.mulE b = .ok (.mul a b))
    ∧ (Sample.mul a b).nelems = a.nelems * b.nelems
    ∧ (∀ ielem : Nat, b.nelems ≠ 0 →
        (Sample.mul a b).getindexE ielem
          = (a.getindexE (ielem / b.nelems)).bind (fun index1 =>
              (b.getindexE (ielem % b.nelems)).bind (fun index2 =>
                pure (index1.flatMap (fun x =>
                  index2.map (fun y => x * b.npoints + y))))))
    ∧ (∀ i1 i2 ga gb, i1 < a.nelems → i2 < b.nelems →
        a.getindexE i1 = .ok ga → b.getindexE i2 = .ok gb →
        (Sample.mul a b).getindexE (i1 * b.nelems + i2)
          = .ok (ga.flatMap (fun x => gb.map (fun y => x * b.npoints + y)))) := by
  refine ⟨?_, ?_, rfl, ?_, ?_⟩
  · intro h
    unfold Sample.mulE
    rw [if_pos ((mul_cond_iff a b).mpr h)]
  · intro h
    unfold Sample.mulE
    rw [if_neg]
    intro hc
    exact (mul_cond_iff a b).mp hc h
  · intro ielem hb
    show (if b.nelems = 0 then Except.error PyError.zeroDivError
      else do
        let index1 ← a.getindexE (ielem / b.nelems)
        let index2 ← b.getindexE (ielem % b.nelems)
        pure (index1.flatMap (fun x => index2.map (fun y => x * b.npoints + y)))) = _
    rw [if_neg hb]
    rfl
  · intro i1 i2 ga gb h1 h2 hok1 hok2
    have hb : b.nelems ≠ 0 := by omega
    have hdiv : (i1 * b.nelems + i2) / b.nelems = i1 := by
      rw [Nat.mul_comm i1 b.nelems, Nat.mul_add_div (by omega),
        Nat.div_eq_of_lt h2, Nat.add_zero]
    have hmod : (i1 * b.nelems + i2) % b.nelems = i2 := by
      rw [Nat.mul_comm i1 b.nelems, Nat.mul_add_mod]
      exact Nat.mod_eq_of_lt h2
    show (if b.nelems = 0 then Except.error PyError.zeroDivError
      else do
        let index1 ← a.getindexE ((i1 * b.nelems + i2) / b.nelems)
        let index2 ← b.getindexE ((i1 * b.nelems + i2) % b.nelems)
        pure (index1.flatMap (fun x => index2.map (fun y => x * b.npoints + y)))) = _
    rw [if_neg hb, hdiv, hmod, hok1, hok2]
    rfl

/-- C4 witness: the product of the scenario sample `X` (one element, three
points) and a two-point one-element leaf over `Y`. -/
theorem claim_C4_witness :
    sampleX.mulE (Sample.defaultIndex "Y" 1 [2]) = .ok
        (.mul sampleX (Sample.defaultIndex "Y" 1 [2]))
    ∧ (Sample.mul sampleX (Sample.defaultIndex "Y" 1 [2])).getindexE (0 * 1 + 0)
      = .ok ([0, 1, 2].flatMap (fun x => [0, 1].map (fun y => x * 2 + y))) :=
  ⟨(claim_C4_mul sampleX (Sample.defaultIndex "Y" 1 [2])).2.1 (by
      intro x hx hy
      simp [sampleX, Sample.spaces] at hx hy
      rw [hx] at hy
      exact absurd hy (by decide)),
    (claim_C4_mul sampleX (Sample.defaultIndex "Y" 1 [2])).2.2.2.2 0 0 [0, 1, 2]
      [0, 1] (by decide) (by decide) (by decide) (by decide)⟩

/-- C8 counterexample: on a Sum of two one-element leaves (element point
counts `1` and `2`), `take_elements([1, 0])` does not preserve the given
order: the first result element has `1` point although the first requested
element (index `1`) has `2` points.  `_Add.take_elements` partitions the
indices into first-operand indices followed by second-operand indices. -/
theorem claim_C8_counterexample :
    sumTwoLeaves.nelems = 2
    ∧ (sumTwoLeaves.getindexD 1).length = 2
    ∧ (sumTwoLeaves.takeElements [1, 0]).nelems = 2
    ∧ ¬ ((sumTwoLeaves.takeElements [1, 0]).getindexD 0).length
        = (sumTwoLeaves.getindexD 1).length := by
  decide

/-- C8 amended: `take_elements([])` yields the canonical empty sample with
zero points and elements; for well-formed samples whose requested elements
are in range and non-empty, `take_elements(indices)` restricts to exactly
the requested elements — one result element per requested index, with the
requested per-element point counts as a multiset.  The given relative order
is preserved by all variants except Sum (and `_TakeElements` wrapping one),
which regroups the indices by operand: when the `take_elements` delegation
spine contains no Sum (`sumFree`), the result's per-element point counts
equal the requested ones in the given order. -/
theorem claim_C8_amended (s : Sample) (idxs : List Nat) (hwf : s.wfb = true)
    (hb : ∀ i ∈ idxs, i < s.nelems)
    (hpos : ∀ i ∈ idxs, 0 < s.elemSizes.getD i 0) :
    s.takeElements [] = .empty s.spaces s.ndims
    ∧ (s.takeElements []).npoints = 0
    ∧ (s.takeElements []).nelems = 0
    ∧ (s.takeElements idxs).nelems = idxs.length
    ∧ (sizesList (s.takeElements idxs)).Perm
        (idxs.map (fun i => s.elemSizes.getD i 0))
    ∧ (s.takeElements idxs).npoints
        = (idxs.map (fun i => s.elemSizes.getD i 0)).sum
    ∧ (sumFree s = true →
        sizesList (s.takeElements idxs)
          = idxs.map (fun i => s.elemSizes.getD i 0)) := by
  have hperm := takeElements_sizes_perm s hwf idxs hb hpos
  refine ⟨takeElements_nil s, ?_, ?_, ?_, hperm,
    takeElements_npoints s hwf idxs hb,
    fun hsf => takeElements_sizes_eq s hsf hwf idxs hb⟩
  · rw [takeElements_nil s]
    rfl
  · rw [takeElements_nil s]
    rfl
  · have hlen := hperm.length_eq
    rw [List.length_map] at hlen
    have hsz : (sizesList (s.takeElements idxs)).length
        = (s.takeElements idxs).nelems := by
      rw [sizesList, List.length_map, List.length_range]
    omega

/-- C8 witness: the amended statement on a two-element leaf with the
indices requested in decreasing order — a Sum-free sample, so the
requested order is preserved exactly. -/
theorem claim_C8_witness :
    (Sample.defaultIndex "X" 1 [3, 2]).takeElements []
        = .empty (Sample.defaultIndex "X" 1 [3, 2]).spaces
          (Sample.defaultIndex "X" 1 [3, 2]).ndims
    ∧ ((Sample.defaultIndex "X" 1 [3, 2]).takeElements []).npoints = 0
    ∧ ((Sample.defaultIndex "X" 1 [3, 2]).takeElements []).nelems = 0
    ∧ ((Sample.defaultIndex "X" 1 [3, 2]).takeElements [1, 0]).nelems
        = [1, 0].length
    ∧ (sizesList ((Sample.defaultIndex "X" 1 [3, 2]).takeElements [1, 0])).Perm
        ([1, 0].map (fun i =>
          (Sample.defaultIndex "X" 1 [3, 2]).elemSizes.getD i 0))
    ∧ ((Sample.defaultIndex "X" 1 [3, 2]).takeElements [1, 0]).npoints
        = ([1, 0].map (fun i =>
          (Sample.defaultIndex "X" 1 [3, 2]).elemSizes.getD i 0)).sum
    ∧ sizesList ((Sample.defaultIndex "X" 1 [3, 2]).takeElements [1, 0])
        = [1, 0].map (fun i =>
          (Sample.defaultIndex "X" 1 [3, 2]).elemSizes.getD i 0) :=
  have h := claim_C8_amended (Sample.defaultIndex "X" 1 [3, 2]) [1, 0]
    (by decide) (by decide) (by decide)
  ⟨h.1, h.2.1, h.2.2.1, h.2.2.2.1, h.2.2.2.2.1, h.2.2.2.2.2.1,
    h.2.2.2.2.2.2 (by decide)⟩

theorem subset_npoints (s : Sample) (mask : List Bool) (hwf : s.wfb = true) :
    (s.subset mask).npoints
      = ((s.subsetSel mask).map (fun e => s.elemSizes.getD e 0)).sum := by
  cases s with
  | defaultIndex space fromdims sizes => rfl
  | customIndex space fromdims sizes index => rfl
  | empty spaces ndims =>
    exact takeElements_npoints _ hwf _ (subsetSel_lt _ mask)
  | add s1 s2 =>
    exact takeElements_npoints _ hwf _ (subsetSel_lt _ mask)
  | mul s1 s2 =>
    exact takeElements_npoints _ hwf _ (subsetSel_lt _ mask)
  | zipped spaces ndims offsets sizes indices npoints =>
    exact takeElements_npoints _ hwf _ (subsetSel_lt _ mask)
  | takeElems parent indices =>
    exact takeElements_npoints _ hwf _ (subsetSel_lt _ mask)

theorem subset_sizes_perm (s : Sample) (mask : List Bool) (hwf : s.wfb = true) :
    (sizesList (s.subset mask)).Perm
      ((s.subsetSel mask).map (fun e => s.elemSizes.getD e 0)) := by
  cases s with
  | defaultIndex space fromdims sizes =>
    show (sizesList (Sample.defaultIndex space fromdims
      (((Sample.defaultIndex space fromdims sizes).subsetSel mask).map
        (fun i => sizes.getD i 0)))).Perm _
    rw [sizesList_eq_elemSizes (Sample.defaultIndex space fromdims
      (((Sample.defaultIndex space fromdims sizes).subsetSel mask).map
        (fun i => sizes.getD i 0))) rfl]
    exact List.Perm.refl _
  | customIndex space fromdims sizes index =>
    show (sizesList (Sample.defaultIndex space fromdims
      (((Sample.customIndex space fromdims sizes index).subsetSel mask).map
        (fun i => sizes.getD i 0)))).Perm _
    rw [sizesList_eq_elemSizes (Sample.defaultIndex space fromdims
      (((Sample.customIndex space fromdims sizes index).subsetSel mask).map
        (fun i => sizes.getD i 0))) rfl]
    exact List.Perm.refl _
  | empty spaces ndims =>
    exact takeElements_sizes_perm _ hwf _ (subsetSel_lt _ mask)
      (subsetSel_pos _ mask hwf)
  | add s1 s2 =>
    exact takeElements_sizes_perm _ hwf _ (subsetSel_lt _ mask)
      (subsetSel_pos _ mask hwf)
  | mul s1 s2 =>
    exact takeElements_sizes_perm _ hwf _ (subsetSel_lt _ mask)
      (subsetSel_pos _ mask hwf)
  | zipped spaces ndims offsets sizes indices npoints =>
    exact takeElements_sizes_perm _ hwf _ (subsetSel_lt _ mask)
      (subsetSel_pos _ mask hwf)
  | takeElems parent indices =>
    exact takeElements_sizes_perm _ hwf _ (subsetSel_lt _ mask)
      (subsetSel_pos _ mask hwf)

/-- C5: `subset(s, m)` retains every element with at least one point marked
`true` (the selection is exactly those elements), comprises exactly the
selected elements' point groups, has at least `count_true(m)` points, and
keeps the retained points in the original relative (element-major) point
order — the retained point sequence is an order-preserving sub-sequence of
the full one. -/
theorem claim_C5_subset (s : Sample) (mask : List Bool) (hwf : s.wfb = true)
    (hcov : s.coversB = true) (hlen : mask.length = s.npoints) :
    (∀ e, e < s.nelems → (∃ p ∈ s.getindexD e, mask.getD p false = true) →
        e ∈ s.subsetSel mask)
    ∧ (sizesList (s.subset mask)).Perm
        ((s.subsetSel mask).map (fun e => s.elemSizes.getD e 0))
    ∧ (s.subset mask).npoints
        = ((s.subsetSel mask).map (fun e => s.elemSizes.getD e 0)).sum
    ∧ countTrue mask ≤ (s.subset mask).npoints
    ∧ ((s.subsetSel mask).flatMap s.getindexD).Sublist
        ((List.range s.nelems).flatMap s.getindexD) := by
  refine ⟨fun e he hp => mem_subsetSel s mask e he hp,
    subset_sizes_perm s mask hwf, subset_npoints s mask hwf, ?_, ?_⟩
  · rw [subset_npoints s mask hwf]
    exact countTrue_le_subset_sum s mask hwf hcov hlen
  · exact sublist_flatMap s.getindexD (List.filter_sublist _)

/-- C5 witness: the Sum sample with a mask marking a point in each
element. -/
theorem claim_C5_witness :
    (∀ e, e < sumTwoLeaves.nelems →
        (∃ p ∈ sumTwoLeaves.getindexD e,
          [true, false, true].getD p false = true) →
        e ∈ sumTwoLeaves.subsetSel [true, false, true])
    ∧ (sizesList (sumTwoLeaves.subset [true, false, true])).Perm
        ((sumTwoLeaves.subsetSel [true, false, true]).map
          (fun e => sumTwoLeaves.elemSizes.getD e 0))
    ∧ (sumTwoLeaves.subset [true, false, true]).npoints
        = ((sumTwoLeaves.subsetSel [true, false, true]).map
          (fun e => sumTwoLeaves.elemSizes.getD e 0)).sum
    ∧ countTrue [true, false, true]
        ≤ (sumTwoLeaves.subset [true, false, true]).npoints
    ∧ ((sumTwoLeaves.subsetSel [true, false, true]).flatMap
        sumTwoLeaves.getindexD).Sublist
        ((List.range sumTwoLeaves.nelems).flatMap sumTwoLeaves.getindexD) :=
  claim_C5_subset sumTwoLeaves [true, false, true] (by decide) (by decide)
    (by decide)

theorem disjB_spec (s : Sample) (h : s.disjB = true) :
    ∀ e1 e2, e1 < s.nelems → e2 < s.nelems → e1 ≠ e2 →
      ∀ p, p ∈ s.getindexD e1 → p ∉ s.getindexD e2 := by
  rw [Sample.disjB, List.all_eq_true] at h
  intro e1 e2 h1 h2 hne p hp1 hp2
  have ha := h e1 (List.mem_range.mpr h1)
  rw [List.all_eq_true] at ha
  have hb := ha e2 (List.mem_range.mpr h2)
  rw [Bool.or_eq_true] at hb
  rcases hb with he | hall
  · exact hne (by simpa using he)
  · rw [List.all_eq_true] at hall
    have hc := hall p hp1
    simp at hc
    exact hc hp2

/-- C1: for a successful zip, the merged sample has exactly one element per
distinct tuple of constituent element indices: the element count equals the
number of distinct per-point tuples; each tuple component is the index of
the (unique) constituent element containing the point; each merged
element's point group is non-empty and all its points share one tuple;
distinct merged elements have distinct tuples; and the merged elements'
`getindex` groups partition the zipped point range. -/
theorem claim_C1_zip_partition (s0 : Sample) (rest : List Sample) (z : Sample)
    (hz : zipE (s0 :: rest) = .ok z)
    (hcov : ∀ s ∈ s0 :: rest, s.coversB = true)
    (hdisj : ∀ s ∈ s0 :: rest, s.disjB = true) :
    z.nelems = ((List.range z.npoints).map
        (zipTuple (s0 :: rest) z.npoints)).dedup.length
    ∧ (∀ p, p < z.npoints → ∀ j, j < (s0 :: rest).length →
        (zipTuple (s0 :: rest) z.npoints p).getD j 0
            < ((s0 :: rest).getD j (.empty [] 0)).nelems
          ∧ p ∈ ((s0 :: rest).getD j (.empty [] 0)).getindexD
              ((zipTuple (s0 :: rest) z.npoints p).getD j 0)
          ∧ (∀ e, e < ((s0 :: rest).getD j (.empty [] 0)).nelems →
              p ∈ ((s0 :: rest).getD j (.empty [] 0)).getindexD e →
              e = (zipTuple (s0 :: rest) z.npoints p).getD j 0))
    ∧ (∀ k, k < z.nelems → z.getindexD k ≠ []
        ∧ ∀ p ∈ z.getindexD k, ∀ q ∈ z.getindexD k,
            zipTuple (s0 :: rest) z.npoints p = zipTuple (s0 :: rest) z.npoints q)
    ∧ (∀ k k', k < z.nelems → k' < z.nelems → k ≠ k' →
        ∀ p ∈ z.getindexD k, ∀ q ∈ z.getindexD k',
          zipTuple (s0 :: rest) z.npoints p ≠ zipTuple (s0 :: rest) z.npoints q)
    ∧ ((List.range z.nelems).flatMap z.getindexD).Perm
        (List.range z.npoints) := by
  obtain ⟨hnp, hnodup, hzeq⟩ := zipE_ok_elim s0 rest z hz
  have hznp : z.npoints = s0.npoints := by
    rw [hzeq]
    rfl
  have hznel : z.nelems = (zipUniq (s0 :: rest) s0.npoints).length := by
    rw [hzeq]
    show (zipSizes (s0 :: rest) s0.npoints).length = _
    exact zipSizes_length _ _
  have hget : ∀ k, k < (zipUniq (s0 :: rest) s0.npoints).length →
      z.getindexD k = zipGroup (s0 :: rest) s0.npoints k := by
    intro k hk
    rw [hzeq]
    unfold Sample.getindexD
    rw [zipped_getindexE_group (s0 :: rest) s0.npoints _ _ k hk]
  have hflatgrp : ∀ k, k < (zipUniq (s0 :: rest) s0.npoints).length →
      ∀ p ∈ zipGroup (s0 :: rest) s0.npoints k,
        zipFlat (s0 :: rest) s0.npoints p
          = (zipUniq (s0 :: rest) s0.npoints).getD k 0 := by
    intro k hk p hp
    rw [mem_zipGroup] at hp
    exact (zipInverse_eq_iff _ _ p k hp.1 hk).mp hp.2
  refine ⟨?_, ?_, ?_, ?_, ?_⟩
  · rw [hznel, hznp]
    exact zipUniq_length_eq_tuples (s0 :: rest) s0.npoints hnp hcov
  · intro p hp j hj
    rw [hznp] at hp ⊢
    have hb := zipTuple_bounds (s0 :: rest) s0.npoints p hp hnp hcov j hj
    refine ⟨hb.1, hb.2, ?_⟩
    intro e he hpe
    by_contra hne
    have hmem : (s0 :: rest).getD j (.empty [] 0) ∈ s0 :: rest := by
      rw [List.getD_eq_getElem _ _ hj]
      exact List.getElem_mem hj
    exact disjB_spec _ (hdisj _ hmem) e _ he hb.1 hne p hpe hb.2
  · intro k hk
    rw [hznel] at hk
    rw [hznp, hget k hk]
    constructor
    · have hmemu : (zipUniq (s0 :: rest) s0.npoints).getD k 0
          ∈ zipUniq (s0 :: rest) s0.npoints := by
        rw [List.getD_eq_getElem _ _ hk]
        exact List.getElem_mem hk
      unfold zipUniq at hmemu
      rw [mem_sortDedup] at hmemu
      unfold zipFlatList at hmemu
      rw [List.mem_map] at hmemu
      obtain ⟨p, hpr, hpflat⟩ := hmemu
      have hp : p < s0.npoints := List.mem_range.mp hpr
      intro hnil
      have hpg : p ∈ zipGroup (s0 :: rest) s0.npoints k := by
        rw [mem_zipGroup]
        exact ⟨hp, (zipInverse_eq_iff _ _ p k hp hk).mpr hpflat⟩
      rw [hnil] at hpg
      exact absurd hpg (List.not_mem_nil p)
    · intro p hp q hq
      have h1 := hflatgrp k hk p hp
      have h2 := hflatgrp k hk q hq
      rw [mem_zipGroup] at hp hq
      exact zipTuple_inj (s0 :: rest) s0.npoints hnp hcov p q hp.1 hq.1
        (h1.trans h2.symm)
  · intro k k' hk hk' hne p hp q hq
    rw [hznel] at hk hk'
    rw [hznp]
    rw [hget k hk] at hp
    rw [hget k' hk'] at hq
    have h1 := hflatgrp k hk p hp
    have h2 := hflatgrp k' hk' q hq
    intro htup
    have hflat : zipFlat (s0 :: rest) s0.npoints p
        = zipFlat (s0 :: rest) s0.npoints q := by
      unfold zipFlat
      rw [htup]
    rw [h1, h2] at hflat
    have hnd : (zipUniq (s0 :: rest) s0.npoints).Nodup := sortDedup_nodup _
    have e1 := idxOfNat_getD (zipUniq (s0 :: rest) s0.npoints) hnd k hk
    have e2 := idxOfNat_getD (zipUniq (s0 :: rest) s0.npoints) hnd k' hk'
    apply hne
    rw [← e1, ← e2, hflat]
  · rw [hznel, hznp]
    have hcongr : (List.range (zipUniq (s0 :: rest) s0.npoints).length).flatMap
        z.getindexD = zipIndices (s0 :: rest) s0.npoints := by
      unfold zipIndices
      rw [List.flatMap_def, List.flatMap_def]
      congr 1
      apply List.map_congr_left
      intro k hk
      exact hget k (List.mem_range.mp hk)
    rw [hcongr]
    exact zipIndices_perm_range _ _

/-- C1 witness: the scenario zip — sample `X` with one element of three
points zipped with sample `Y` with three one-point elements — satisfies the
partition property; in particular the merged sample has 3 elements (the
number of distinct tuples). -/
theorem claim_C1_witness :
    (zipXY.nelems = ((List.range zipXY.npoints).map
        (zipTuple [sampleX, sampleY] zipXY.npoints)).dedup.length
    ∧ (∀ p, p < zipXY.npoints → ∀ j, j < ([sampleX, sampleY]).length →
        (zipTuple [sampleX, sampleY] zipXY.npoints p).getD j 0
            < (([sampleX, sampleY]).getD j (.empty [] 0)).nelems
          ∧ p ∈ (([sampleX, sampleY]).getD j (.empty [] 0)).getindexD
              ((zipTuple [sampleX, sampleY] zipXY.npoints p).getD j 0)
          ∧ (∀ e, e < (([sampleX, sampleY]).getD j (.empty [] 0)).nelems →
              p ∈ (([sampleX, sampleY]).getD j (.empty [] 0)).getindexD e →
              e = (zipTuple [sampleX, sampleY] zipXY.npoints p).getD j 0))
    ∧ (∀ k, k < zipXY.nelems → zipXY.getindexD k ≠ []
        ∧ ∀ p ∈ zipXY.getindexD k, ∀ q ∈ zipXY.getindexD k,
            zipTuple [sampleX, sampleY] zipXY.npoints p
              = zipTuple [sampleX, sampleY] zipXY.npoints q)
    ∧ (∀ k k', k < zipXY.nelems → k' < zipXY.nelems → k ≠ k' →
        ∀ p ∈ zipXY.getindexD k, ∀ q ∈ zipXY.getindexD k',
          zipTuple [sampleX, sampleY] zipXY.npoints p
            ≠ zipTuple [sampleX, sampleY] zipXY.npoints q)
    ∧ ((List.range zipXY.nelems).flatMap zipXY.getindexD).Perm
        (List.range zipXY.npoints))
    ∧ zipXY.nelems = 3 :=
  ⟨claim_C1_zip_partition sampleX [sampleY] zipXY (by decide) (by decide)
    (by decide), by decide⟩

end NutilsSample
